import Mathlib

/-! # LEB128 data-inspector codecs (`HXD LEB128 Plugin/dllmain.cpp`)

A shallow embedding of the two codecs of the plugin, `unsigned_leb128` and
`signed_leb128`, and of the text-number parsers `str2int` / `str2uint` they call.

Conventions of the embedding.

* `uint8_t`, `uint64_t` values are natural numbers; every operation that can leave the
  64-bit range is reduced `% 2 ^ 64` explicitly.  `int64_t` values are integers, kept in
  `[-2^63, 2^63)` by `wrap_i64`; the bit operations on them go through the two's
  complement bit pattern (`to_u64`).
* A `const wchar_t*` text is the list of its characters before the terminating NUL;
  `deref` reads the terminator at the position one past the last character.
* A `uint8_t*` buffer is the list of octets stored from the pointer onwards; reading a
  position the list does not have is a read outside the supplied buffer and makes the
  whole call `none`.
* Out-parameters and the instance behind `thisptr` are passed in and returned explicitly.
* The C library functions `iswspace`, `wcstoul`, `wcstoll` and the stream insertion
  `ss << value` are not part of the repository; they are modelled from ISO C / ISO C++
  for the "C" locale.  `wcstoul` returns an `unsigned long`, whose largest value
  `ULONG_MAX` is fixed by the platform and not by the source, so it is a parameter
  (`4294967295` on the Windows ABI the plugin is built for, `18446744073709551615` on
  LP64 platforms).
-/

namespace data_types

/-! ## Enumerations -/

inductive width_classification where
  | VARIABLE
  | FIXED
  deriving DecidableEq, Repr

/-- The flag enumeration `byte_order_classification`, as its underlying `uint8_t`. -/
abbrev byte_order_classification := Nat

def byte_order_classification.LITTLE_ENDIAN : byte_order_classification := 1 <<< 0

def byte_order_classification.BIG_ENDIAN : byte_order_classification := 1 <<< 1

inductive bytes_to_str_error_code where
  | NONE
  | INVALID_BYTES
  | BYTES_TOO_SHORT
  deriving DecidableEq, Repr

inductive str_to_bytes_error_code where
  | NONE
  | INVALID_STRING
  | UNDERFLOW
  | OVERFLOW
  | OUT_OF_RANGE
  deriving DecidableEq, Repr

inductive integer_display_option where
  | DECIMAL
  | HEX_UPPER_CASE
  | HEX_LOWER_CASE
  deriving DecidableEq, Repr

/-! ## Machine integers -/

def ULLONG_MAX : Nat := 18446744073709551615

def LLONG_MAX : Int := 9223372036854775807

def LLONG_MIN : Int := -9223372036854775808

/-- The conversion `static_cast<uint64_t>(x)`: the two's complement bit pattern of `x`. -/
def to_u64 (x : Int) : Nat := (x % 18446744073709551616).toNat

/-- The conversion `static_cast<int64_t>(n)` of a bit pattern, also the result of an
`int64_t` operation whose mathematical value is `x` (two's complement wrap-around). -/
def wrap_i64 (x : Int) : Int :=
  (x + 9223372036854775808) % 18446744073709551616 - 9223372036854775808

/-- The operator `a << k` on `int64_t`. -/
def i64_shl (a : Int) (k : Nat) : Int := wrap_i64 ((to_u64 a <<< k : Nat) : Int)

/-- The operator `a >> k` on `int64_t`: arithmetic shift, the sign is propagated. -/
def i64_sar (a : Int) (k : Nat) : Int := a / ((2 ^ k : Nat) : Int)

/-- The operator `a ^ b` on `int64_t`. -/
def i64_xor (a b : Int) : Int := wrap_i64 ((to_u64 a ^^^ to_u64 b : Nat) : Int)

/-- The operator `a & b` on `int64_t`. -/
def i64_and (a b : Int) : Int := wrap_i64 ((to_u64 a &&& to_u64 b : Nat) : Int)

/-- The unary operator `-a` on `int64_t`. -/
def i64_neg (a : Int) : Int := wrap_i64 (-a)

/-! ## Texts and the C library -/

/-- The character a `const wchar_t*` at offset `p` of the text points to; the
terminating NUL sits at offset `str.length`. -/
def deref (str : List Char) (p : Nat) : Char := str.getD p (Char.ofNat 0)

/-- The function `iswspace` in the "C" locale: space, `\t`, `\n`, `\v`, `\f`, `\r`. -/
def iswspace (c : Char) : Bool :=
  c.toNat = 32 || (9 ≤ c.toNat && c.toNat ≤ 13)

/-- The value of a character as a digit, letters standing for 10 to 35 in either case. -/
def digit_value (c : Char) : Option Nat :=
  if 48 ≤ c.toNat ∧ c.toNat ≤ 57 then some (c.toNat - 48)
  else if 97 ≤ c.toNat ∧ c.toNat ≤ 122 then some (c.toNat - 97 + 10)
  else if 65 ≤ c.toNat ∧ c.toNat ≤ 90 then some (c.toNat - 65 + 10)
  else none

/-- Whether `c` is a digit of the given base. -/
def is_digit (base : Nat) (c : Char) : Bool :=
  match digit_value c with
  | some d => decide (d < base)
  | none => false

/-- The optional sign of a subject sequence: whether it is `-`, and the text after it. -/
def take_sign : List Char → Bool × List Char
  | [] => (false, [])
  | c :: cs =>
    if c.toNat = 45 then (true, cs)
    else if c.toNat = 43 then (false, cs)
    else (false, c :: cs)

/-- The optional `0x` / `0X` of a base-16 subject sequence; it belongs to the subject
sequence only when a hexadecimal digit follows it. -/
def take_0x (base : Nat) : List Char → List Char
  | c0 :: c1 :: c2 :: cs =>
    if base = 16 ∧ c0.toNat = 48 ∧ (c1.toNat = 120 ∨ c1.toNat = 88) ∧ is_digit 16 c2 = true then
      c2 :: cs
    else c0 :: c1 :: c2 :: cs
  | s => s

/-- The longest run of digits of the base at the head of the text: the value read so
far, the number of digits read, and the text left. -/
def scan_digits (base : Nat) : List Char → Nat → Nat → Nat × Nat × List Char
  | [], acc, n => (acc, n, [])
  | c :: cs, acc, n =>
    match digit_value c with
    | some d => if d < base then scan_digits base cs (acc * base + d) (n + 1) else (acc, n, c :: cs)
    | none => (acc, n, c :: cs)

/-- What `wcstoul` / `wcstoll` hand back: the returned number, the offset of `endptr`
from the start of the text, and whether `errno` was set to `ERANGE`. -/
structure strto_result (α : Type) where
  value : α
  endptr : Nat
  erange : Bool
  deriving DecidableEq, Repr

/-- The C library's `wcstoul(str, &endptr, base)` for base 10 or 16: white space, an
optional sign, for base 16 an optional `0x`, then digits.  Without a digit nothing is
converted and `endptr` is `str`; a magnitude above `ULONG_MAX` gives `ULONG_MAX` with
`ERANGE`; a `-` negates the magnitude in the `unsigned long` type. -/
def wcstoul (ULONG_MAX : Nat) (str : List Char) (base : Nat) : strto_result Nat :=
  let s1 := str.dropWhile iswspace
  let sg := take_sign s1
  let s3 := take_0x base sg.2
  let r := scan_digits base s3 0 0
  if r.2.1 = 0 then ⟨0, 0, false⟩
  else if ULONG_MAX < r.1 then ⟨ULONG_MAX, str.length - r.2.2.length, true⟩
  else ⟨if sg.1 then (ULONG_MAX + 1 - r.1) % (ULONG_MAX + 1) else r.1,
        str.length - r.2.2.length, false⟩

/-- The C library's `wcstoll(str, &endptr, base)` for base 10 or 16: the same subject
sequence as `wcstoul`; a value above `LLONG_MAX` gives `LLONG_MAX` with `ERANGE`, a value
below `LLONG_MIN` gives `LLONG_MIN` with `ERANGE`. -/
def wcstoll (str : List Char) (base : Nat) : strto_result Int :=
  let s1 := str.dropWhile iswspace
  let sg := take_sign s1
  let s3 := take_0x base sg.2
  let r := scan_digits base s3 0 0
  if r.2.1 = 0 then ⟨0, 0, false⟩
  else if sg.1 then
    if -(r.1 : Int) < LLONG_MIN then ⟨LLONG_MIN, str.length - r.2.2.length, true⟩
    else ⟨-(r.1 : Int), str.length - r.2.2.length, false⟩
  else
    if LLONG_MAX < (r.1 : Int) then ⟨LLONG_MAX, str.length - r.2.2.length, true⟩
    else ⟨(r.1 : Int), str.length - r.2.2.length, false⟩

/-- The character for the digit `d < 16`, as `std::uppercase` / `std::nouppercase` ask. -/
def digit_char (uppercase : Bool) (d : Nat) : Char :=
  if d < 10 then Char.ofNat (48 + d)
  else Char.ofNat ((if uppercase then 65 else 97) + (d - 10))

/-- The digits of `n` in the base, most significant first, put in front of `acc`. -/
def put_digits (base : Nat) (uppercase : Bool) : Nat → Nat → List Char → List Char
  | 0, _, acc => acc
  | fuel + 1, n, acc =>
    if n / base = 0 then digit_char uppercase (n % base) :: acc
    else put_digits base uppercase fuel (n / base) (digit_char uppercase (n % base) :: acc)

/-- The numeral of an unsigned 64-bit value (at most 64 digits in any base from 2). -/
def put_unsigned (base : Nat) (uppercase : Bool) (n : Nat) : List Char :=
  put_digits base uppercase 64 n []

/-- The statement `ss << value` for a `uint64_t` after the manipulators chosen by the
`switch` over `int_display_opt`. -/
def stream_u64 (int_display_opt : integer_display_option) (value : Nat) : List Char :=
  match int_display_opt with
  | .HEX_UPPER_CASE => put_unsigned 16 true value
  | .HEX_LOWER_CASE => put_unsigned 16 false value
  | .DECIMAL => put_unsigned 10 false value

/-- The statement `ss << value` for an `int64_t`: with `std::hex` the value is written
as its unsigned bit pattern, with `std::dec` as a signed decimal numeral. -/
def stream_i64 (int_display_opt : integer_display_option) (value : Int) : List Char :=
  match int_display_opt with
  | .HEX_UPPER_CASE => put_unsigned 16 true (to_u64 value)
  | .HEX_LOWER_CASE => put_unsigned 16 false (to_u64 value)
  | .DECIMAL =>
    if value < 0 then Char.ofNat 45 :: put_unsigned 10 false (-value).toNat
    else put_unsigned 10 false value.toNat

/-! ## The text-number parsers -/

/-- The function `str2int(begin, res, base)`; the second component is `*res` on return
(`res` is its content on entry).  `errno` is cleared before `wcstoll` runs and restored
afterwards, so `errno == ERANGE` is the flag of the call. -/
def str2int (begin : Option (List Char)) (res : Int) (base : Nat) :
    str_to_bytes_error_code × Int :=
  match begin with
  | none => (.INVALID_STRING, res)
  | some s =>
    if iswspace (deref s 0) then (.INVALID_STRING, res)
    else
      let r := wcstoll s base
      let res := r.value
      if r.endptr = 0 ∨ deref s r.endptr ≠ Char.ofNat 0 then (.INVALID_STRING, res)
      else if r.erange then
        if res = LLONG_MIN then (.UNDERFLOW, res)
        else if res = LLONG_MAX then (.OVERFLOW, res)
        else (.NONE, res)
      else (.NONE, res)

/-- The function `str2uint(str, res, base)`; the second component is `*res` on return.
The `unsigned long` that `wcstoul` returns is stored into the `uint64_t` unchanged. -/
def str2uint (ULONG_MAX : Nat) (str : Option (List Char)) (res : Nat) (base : Nat) :
    str_to_bytes_error_code × Nat :=
  match str with
  | none => (.INVALID_STRING, res)
  | some s =>
    if iswspace (deref s 0) then (.INVALID_STRING, res)
    else
      let r := wcstoul ULONG_MAX s base
      let res := r.value
      if r.endptr = 0 ∨ deref s r.endptr ≠ Char.ofNat 0 then (.INVALID_STRING, res)
      else if r.erange then
        if res = 0 then (.UNDERFLOW, res)
        else if res = ULLONG_MAX then (.OVERFLOW, res)
        else (.NONE, res)
      else (.NONE, res)

/-! ## Parts shared by the two codecs -/

/-- The third loop of the trimming block, `while (!*end || iswspace(*end)) --end;`,
entered with `end` at offset `k` where the condition holds: the offset `end` stops at,
or `none` when `--end` leaves the text at its front. -/
def trim_end (str : List Char) : Nat → Option Nat
  | 0 => none
  | k + 1 =>
    if deref str k = Char.ofNat 0 ∨ iswspace (deref str k) = true then trim_end str k
    else some k

/-- The trimming block at the head of `str_to_bytes`: `begin` skips the leading white
space, `end` runs to the terminator and back over trailing white space, and
`wstr = std::wstring(begin, end + 1)`. -/
def trim (str : List Char) : Option (List Char) :=
  let begin := (str.takeWhile iswspace).length
  match trim_end str str.length with
  | none => none
  | some e => some ((str.take (e + 1)).drop begin)

/-- The `switch` that chooses the radix. -/
def radix_of (int_display_opt : integer_display_option) : Nat :=
  match int_display_opt with
  | .HEX_UPPER_CASE => 16
  | .HEX_LOWER_CASE => 16
  | .DECIMAL => 10

/-- The emitting loop `while (true) { c = value & 127; value >>= 7; ... }` of both
`str_to_bytes`, pushing onto `out`; a `uint64_t` is used up after at most ten rounds, the
first argument bounds the rounds. -/
def emit_loop : Nat → Nat → List Nat → Option (List Nat)
  | 0, _, _ => none
  | fuel + 1, value, out =>
    let c := value &&& 127
    let value := value >>> 7
    if value ≠ 0 then emit_loop fuel value (out ++ [c ||| 128])
    else some (out ++ [c])

/-- What `bytes_to_str` hands back: the returned code, `*converted_byte_count`,
`*converted_str` (`none`: the out-parameter was not written) and the instance. -/
structure bytes_to_str_out (α : Type) where
  error : bytes_to_str_error_code
  converted_byte_count : Int
  converted_str : Option (List Char)
  thisptr : α
  deriving DecidableEq, Repr

/-- What `str_to_bytes` hands back: the returned code, the bytes `*converted_bytes`
points to, `*converted_byte_count` and the instance. -/
structure str_to_bytes_out (α : Type) where
  error : str_to_bytes_error_code
  converted_bytes : List Nat
  converted_byte_count : Int
  thisptr : α
  deriving DecidableEq, Repr

/-! ## The unsigned codec -/

structure unsigned_leb128 where
  m_name : List Char
  m_maximum_size : Int
  m_width_type : width_classification
  m_supported_byte_orders : byte_order_classification
  bytes_to_string_result : List Char
  string_to_bytes_result : List Nat
  deriving DecidableEq, Repr

namespace unsigned_leb128

/-- The function `init_instance`: the instance with its metadata set (and empty
containers, as `alloc_instance` leaves them). -/
def init_instance : unsigned_leb128 :=
  { m_name := "Unsigned LEB128".toList
    m_maximum_size := 64 / 7
    m_width_type := .VARIABLE
    m_supported_byte_orders := byte_order_classification.LITTLE_ENDIAN
    bytes_to_string_result := []
    string_to_bytes_result := [] }

/-- The function `change_byte_order`: nothing is done to the bytes. -/
def change_byte_order (_thisptr : unsigned_leb128) (bytes : List Nat) (_byte_count : Int)
    (_target_byte_order : byte_order_classification) : List Nat := bytes

/-- The decoding loop of `bytes_to_str`, from the state `value`,
`*converted_byte_count`, `i` with `bytes` the octets from the pointer onwards: the code
the loop leaves with (`NONE` for `break`), `value` and `*converted_byte_count`. -/
def bytes_to_str_loop (byte_count : Int) (bytes : List Nat) (value : Nat)
    (converted_byte_count : Int) (i : Nat) : Option (bytes_to_str_error_code × Nat × Int) :=
  if converted_byte_count ≥ byte_count then
    some (.BYTES_TOO_SHORT, value, converted_byte_count)
  else if converted_byte_count ≥ 64 / 7 then
    some (.INVALID_BYTES, value, converted_byte_count)
  else
    match bytes with
    | [] => none
    | c :: bytes =>
      let value := (value + ((c &&& 127) <<< i) % 2 ^ 64) % 2 ^ 64
      if c &&& 128 = 0 then some (.NONE, value, converted_byte_count + 1)
      else bytes_to_str_loop byte_count bytes value (converted_byte_count + 1) (i + 7)

/-- The function `unsigned_leb128::bytes_to_str`. -/
def bytes_to_str (thisptr : unsigned_leb128) (bytes : List Nat) (byte_count : Int)
    (int_display_opt : integer_display_option) : Option (bytes_to_str_out unsigned_leb128) :=
  match bytes_to_str_loop byte_count bytes 0 0 0 with
  | none => none
  | some (.NONE, value, converted_byte_count) =>
    let str := stream_u64 int_display_opt value
    some ⟨.NONE, converted_byte_count, some str, { thisptr with bytes_to_string_result := str }⟩
  | some (err, _, converted_byte_count) => some ⟨err, converted_byte_count, none, thisptr⟩

/-- The function `unsigned_leb128::str_to_bytes`; `value0` is the indeterminate content
of the local `value` before `str2uint` runs.  The parser is called on `str`; the trimmed
`wstr` is not read again. -/
def str_to_bytes (ULONG_MAX : Nat) (value0 : Nat) (thisptr : unsigned_leb128)
    (str : List Char) (int_display_opt : integer_display_option) :
    Option (str_to_bytes_out unsigned_leb128) :=
  match trim str with
  | none => none
  | some _wstr =>
    let radix := radix_of int_display_opt
    let r := str2uint ULONG_MAX (some str) value0 radix
    let result := r.1
    let value := r.2
    (emit_loop 10 value []).map fun out =>
      ⟨result, out, out.length, { thisptr with string_to_bytes_result := out }⟩

end unsigned_leb128

/-! ## The signed codec -/

structure signed_leb128 where
  m_name : List Char
  m_maximum_size : Int
  m_width_type : width_classification
  m_supported_byte_orders : byte_order_classification
  bytes_to_string_result : List Char
  string_to_bytes_result : List Nat
  deriving DecidableEq, Repr

namespace signed_leb128

/-- The function `init_instance` of the signed codec. -/
def init_instance : signed_leb128 :=
  { m_name := "Signed LEB128".toList
    m_maximum_size := 64 / 7
    m_width_type := .VARIABLE
    m_supported_byte_orders := byte_order_classification.LITTLE_ENDIAN
    bytes_to_string_result := []
    string_to_bytes_result := [] }

/-- The function `change_byte_order`: nothing is done to the bytes. -/
def change_byte_order (_thisptr : signed_leb128) (bytes : List Nat) (_byte_count : Int)
    (_target_byte_order : byte_order_classification) : List Nat := bytes

/-- The decoding loop of `bytes_to_str`, accumulating into an `int64_t`. -/
def bytes_to_str_loop (byte_count : Int) (bytes : List Nat) (value : Int)
    (converted_byte_count : Int) (i : Nat) : Option (bytes_to_str_error_code × Int × Int) :=
  if converted_byte_count ≥ byte_count then
    some (.BYTES_TOO_SHORT, value, converted_byte_count)
  else if converted_byte_count ≥ 64 / 7 then
    some (.INVALID_BYTES, value, converted_byte_count)
  else
    match bytes with
    | [] => none
    | c :: bytes =>
      let value := wrap_i64 (value + i64_shl ((c &&& 127 : Nat) : Int) i)
      if c &&& 128 = 0 then some (.NONE, value, converted_byte_count + 1)
      else bytes_to_str_loop byte_count bytes value (converted_byte_count + 1) (i + 7)

/-- The zig-zag step `value = (value >> 1) ^ -(value & 1)` of `bytes_to_str`. -/
def zigzag_decode (value : Int) : Int :=
  i64_xor (i64_sar value 1) (i64_neg (i64_and value 1))

/-- The zig-zag step `static_cast<uint64_t>((value << 1) ^ (value >> 63))` of
`str_to_bytes`. -/
def zigzag_encode (value : Int) : Nat :=
  to_u64 (i64_xor (i64_shl value 1) (i64_sar value 63))

/-- The function `signed_leb128::bytes_to_str`. -/
def bytes_to_str (thisptr : signed_leb128) (bytes : List Nat) (byte_count : Int)
    (int_display_opt : integer_display_option) : Option (bytes_to_str_out signed_leb128) :=
  match bytes_to_str_loop byte_count bytes 0 0 0 with
  | none => none
  | some (.NONE, value, converted_byte_count) =>
    let value := zigzag_decode value
    let str := stream_i64 int_display_opt value
    some ⟨.NONE, converted_byte_count, some str, { thisptr with bytes_to_string_result := str }⟩
  | some (err, _, converted_byte_count) => some ⟨err, converted_byte_count, none, thisptr⟩

/-- The function `signed_leb128::str_to_bytes`; `value0` is the indeterminate content of
the local `value` before `str2int` runs.  When `str2int` reports `OVERFLOW` the text is
parsed again by `str2uint`, which writes the same eight bytes through the reinterpreted
pointer. -/
def str_to_bytes (ULONG_MAX : Nat) (value0 : Int) (thisptr : signed_leb128)
    (str : List Char) (int_display_opt : integer_display_option) :
    Option (str_to_bytes_out signed_leb128) :=
  match trim str with
  | none => none
  | some _wstr =>
    let radix := radix_of int_display_opt
    let r := str2int (some str) value0 radix
    let r :=
      if r.1 = .OVERFLOW then
        let u := str2uint ULONG_MAX (some str) (to_u64 r.2) radix
        (u.1, wrap_i64 (u.2 : Int))
      else r
    let result := r.1
    let value := r.2
    let unsigned_value := zigzag_encode value
    (emit_loop 10 unsigned_value []).map fun out =>
      ⟨result, out, out.length, { thisptr with string_to_bytes_result := out }⟩

end signed_leb128

/-! ## Auxiliary functions of the proofs -/

/-- The value a run of octets carries: `(byte_0 & 0x7F) + 128 * (the value of the rest)`,
that is the sum of `(byte_i & 0x7F) * 2 ^ (7 * i)`. -/
def payload : List Nat → Nat
  | [] => 0
  | c :: cs => (c &&& 127) + 128 * payload cs

/-- The `uint64_t` accumulator after the decoding loop has taken the listed octets,
starting from `value` with shift `i`. -/
def accumulate : List Nat → Nat → Nat → Nat
  | [], value, _ => value
  | c :: cs, value, i => accumulate cs ((value + ((c &&& 127) <<< i) % 2 ^ 64) % 2 ^ 64) (i + 7)

/-- The octets the emitting loop produces for `v` within `fuel` rounds: the 7-bit groups
of `v`, least significant first, each but the last with `128` added. -/
def leb_groups : Nat → Nat → List Nat
  | 0, _ => []
  | fuel + 1, v =>
    if v / 128 ≠ 0 then (v % 128 + 128) :: leb_groups fuel (v / 128) else [v % 128]

/-- The digits of `n` in the base, most significant first, put in front of `acc`: the
numbers whose characters `put_digits` writes. -/
def digits_of (base : Nat) : Nat → Nat → List Nat → List Nat
  | 0, _, acc => acc
  | fuel + 1, n, acc =>
    if n / base = 0 then (n % base) :: acc
    else digits_of base fuel (n / base) ((n % base) :: acc)

/-- The number a list of digits, most significant first, stands for, continuing `acc`. -/
def digits_value (base : Nat) (ds : List Nat) (acc : Nat) : Nat :=
  ds.foldl (fun a d => a * base + d) acc

/-- The scan both `wcstoul` and `wcstoll` make of a text: past white space, a sign and a
`0x`, the digits; the value read, the number of digits and the text left. -/
def subject_scan (base : Nat) (str : List Char) : Nat × Nat × List Char :=
  scan_digits base (take_0x base (take_sign (str.dropWhile iswspace)).2) 0 0

/-! ## The decoding loop -/

theorem and_127_lt (c : Nat) : c &&& 127 < 128 :=
  Nat.lt_succ_of_le Nat.and_le_right

theorem payload_lt : ∀ l : List Nat, payload l < 2 ^ (7 * l.length)
  | [] => by simp [payload]
  | c :: cs => by
    have h := payload_lt cs
    have hc := and_127_lt c
    have e : 2 ^ (7 * (c :: cs).length) = 128 * 2 ^ (7 * cs.length) := by
      rw [List.length_cons, Nat.mul_succ, Nat.pow_add]; norm_num [Nat.mul_comm]
    rw [e, payload]
    omega

theorem accumulate_eq : ∀ (l : List Nat) (value i : Nat), value < 2 ^ i →
    i + 7 * l.length ≤ 64 → accumulate l value i = value + 2 ^ i * payload l
  | [], value, i, _, _ => by simp [accumulate, payload]
  | c :: cs, value, i, hv, hi => by
    have hc := and_127_lt c
    simp only [List.length_cons] at hi
    have hp : 2 ^ (i + 7) = 2 ^ i * 128 := by rw [Nat.pow_add]
    have hle : 2 ^ (i + 7) ≤ 2 ^ 64 := Nat.pow_le_pow_right (by norm_num) (by omega)
    have hm : (c &&& 127) * 2 ^ i ≤ 127 * 2 ^ i := Nat.mul_le_mul_right _ (by omega)
    have h1 : ((c &&& 127) <<< i) % 2 ^ 64 = (c &&& 127) * 2 ^ i := by
      rw [Nat.shiftLeft_eq]; apply Nat.mod_eq_of_lt; omega
    have h2 : (value + (c &&& 127) * 2 ^ i) % 2 ^ 64 = value + (c &&& 127) * 2 ^ i := by
      apply Nat.mod_eq_of_lt; omega
    rw [accumulate, h1, h2, accumulate_eq cs _ (i + 7) (by omega) (by omega), payload, hp]
    ring

namespace unsigned_leb128

/-- A run of octets that all carry the continuation bit is taken by the loop when
neither guard stops it. -/
theorem loop_run (bc : Int) : ∀ (pre rest : List Nat) (value : Nat) (cnt : Int) (i : Nat),
    (∀ c ∈ pre, c &&& 128 ≠ 0) → cnt + pre.length ≤ bc → cnt + pre.length ≤ 9 →
    bytes_to_str_loop bc (pre ++ rest) value cnt i
      = bytes_to_str_loop bc rest (accumulate pre value i) (cnt + pre.length)
          (i + 7 * pre.length)
  | [], rest, value, cnt, i, _, _, _ => by simp [accumulate]
  | c :: cs, rest, value, cnt, i, hc, h1, h2 => by
    simp only [List.length_cons, Nat.cast_add, Nat.cast_one] at h1 h2
    have hc0 : c &&& 128 ≠ 0 := hc c (List.mem_cons_self _ _)
    have ih := loop_run bc cs rest ((value + ((c &&& 127) <<< i) % 2 ^ 64) % 2 ^ 64)
      (cnt + 1) (i + 7) (fun x hx => hc x (List.mem_cons_of_mem _ hx)) (by omega) (by omega)
    rw [List.cons_append, bytes_to_str_loop, if_neg (by omega), if_neg (by omega)]
    simp only [hc0, if_false]
    rw [ih, accumulate]
    simp only [List.length_cons, Nat.cast_add, Nat.cast_one]
    congr 1 <;> ring

end unsigned_leb128

theorem accumulate_append : ∀ (pre : List Nat) (c value i : Nat),
    accumulate (pre ++ [c]) value i
      = (accumulate pre value i + ((c &&& 127) <<< (i + 7 * pre.length)) % 2 ^ 64) % 2 ^ 64
  | [], c, value, i => by simp [accumulate]
  | a :: pre, c, value, i => by
    rw [List.cons_append, accumulate, accumulate, accumulate_append pre c _ (i + 7),
      List.length_cons]
    congr 4
    ring

theorem mem_take_getD : ∀ (l : List Nat) (k x : Nat), x ∈ l.take k →
    ∃ i, i < k ∧ l.getD i 0 = x
  | [], k, x, h => by simp at h
  | _ :: _, 0, x, h => by simp at h
  | a :: l, k + 1, x, h => by
    rw [List.take_succ_cons, List.mem_cons] at h
    rcases h with h | h
    · exact ⟨0, by omega, by simp [h]⟩
    · obtain ⟨i, hi, e⟩ := mem_take_getD l k x h
      exact ⟨i + 1, by omega, by simpa using e⟩

theorem split_at_getD : ∀ (l : List Nat) (k : Nat), k < l.length →
    l = l.take k ++ l.getD k 0 :: l.drop (k + 1)
  | [], k, h => by simp at h
  | a :: l, 0, _ => by simp
  | a :: l, k + 1, h => by
    have := split_at_getD l k (by simpa using h)
    simpa using this

theorem take_succ_getD : ∀ (l : List Nat) (k : Nat), k < l.length →
    l.take (k + 1) = l.take k ++ [l.getD k 0]
  | [], k, h => by simp at h
  | a :: l, 0, _ => by simp
  | a :: l, k + 1, h => by
    have := take_succ_getD l k (by simpa using h)
    simpa using this

theorem payload_take_sum : ∀ (l : List Nat) (n : Nat),
    payload (l.take n) = ∑ i in Finset.range n, (l.getD i 0 &&& 127) * 2 ^ (7 * i)
  | [], n => by simp [payload]
  | _ :: _, 0 => by simp [payload]
  | a :: l, n + 1 => by
    rw [List.take_succ_cons, payload, payload_take_sum l n, Finset.sum_range_succ',
      Finset.mul_sum]
    simp only [List.getD_cons_succ, List.getD_cons_zero, Nat.mul_zero, Nat.pow_zero,
      Nat.mul_one]
    rw [Nat.add_comm]
    congr 1
    apply Finset.sum_congr rfl
    intro i _
    rw [Nat.mul_succ, Nat.pow_add]
    ring

namespace unsigned_leb128

/-- The loop stops at the first octet without the continuation bit, at index `k`, with
the exact value of the octets up to it. -/
theorem loop_stop (bc : Int) (bytes : List Nat) (k : Nat) (hk : k < bytes.length)
    (hk9 : k < 9) (hbc : (k : Int) < bc)
    (hcont : ∀ i, i < k → bytes.getD i 0 &&& 128 ≠ 0) (hlast : bytes.getD k 0 &&& 128 = 0) :
    bytes_to_str_loop bc bytes 0 0 0
      = some (.NONE, payload (bytes.take (k + 1)), (k : Int) + 1) := by
  have hlen : (bytes.take k).length = k := by rw [List.length_take]; omega
  have hpre : ∀ c ∈ bytes.take k, c &&& 128 ≠ 0 := by
    intro c hc
    obtain ⟨i, hi, e⟩ := mem_take_getD bytes k c hc
    rw [← e]; exact hcont i hi
  have hrun := loop_run bc (bytes.take k) (bytes.getD k 0 :: bytes.drop (k + 1)) 0 0 0 hpre
    (by rw [hlen]; omega) (by rw [hlen]; omega)
  rw [← split_at_getD bytes k hk, hlen] at hrun
  rw [hrun, bytes_to_str_loop, if_neg (by omega), if_neg (by omega)]
  simp only [hlast, if_true]
  have hacc := accumulate_append (bytes.take k) (bytes.getD k 0) 0 0
  rw [hlen] at hacc
  rw [← hacc, ← take_succ_getD bytes k hk,
    accumulate_eq _ 0 0 (by norm_num) (by rw [List.length_take]; omega)]
  simp

/-- Octets that all carry the continuation bit exhaust a buffer of at most nine. -/
theorem loop_exhaust (bytes : List Nat) (h9 : bytes.length ≤ 9)
    (hcont : ∀ c ∈ bytes, c &&& 128 ≠ 0) :
    bytes_to_str_loop bytes.length bytes 0 0 0
      = some (.BYTES_TOO_SHORT, accumulate bytes 0 0, (bytes.length : Int)) := by
  have hrun := loop_run bytes.length bytes [] 0 0 0 hcont (by omega) (by omega)
  rw [List.append_nil] at hrun
  rw [hrun, bytes_to_str_loop, if_pos (by omega)]
  simp

/-- Nine octets with the continuation bit and a larger `byte_count` stop at the second
guard. -/
theorem loop_overlong (bc : Int) (bytes : List Nat) (hbc : 10 ≤ bc) (h9 : 9 ≤ bytes.length)
    (hcont : ∀ i, i < 9 → bytes.getD i 0 &&& 128 ≠ 0) :
    bytes_to_str_loop bc bytes 0 0 0
      = some (.INVALID_BYTES, accumulate (bytes.take 9) 0 0, 9) := by
  have hlen : (bytes.take 9).length = 9 := by rw [List.length_take]; omega
  have hpre : ∀ c ∈ bytes.take 9, c &&& 128 ≠ 0 := by
    intro c hc
    obtain ⟨i, hi, e⟩ := mem_take_getD bytes 9 c hc
    rw [← e]; exact hcont i hi
  have hrun := loop_run bc (bytes.take 9) (bytes.drop 9) 0 0 0 hpre
    (by rw [hlen]; omega) (by rw [hlen]; omega)
  rw [List.take_append_drop, hlen] at hrun
  rw [hrun, bytes_to_str_loop.eq_def, if_neg (by norm_num; omega), if_pos (by norm_num)]
  simp

/-- The count the loop leaves with lies between the count it starts with and nine. -/
theorem loop_count (bc : Int) : ∀ (bytes : List Nat) (value : Nat) (cnt : Int) (i : Nat)
    (r : bytes_to_str_error_code × Nat × Int), cnt ≤ 9 →
    bytes_to_str_loop bc bytes value cnt i = some r → cnt ≤ r.2.2 ∧ r.2.2 ≤ 9
  | [], value, cnt, i, r, h9, h => by
    rw [bytes_to_str_loop] at h
    split_ifs at h <;> simp at h <;> subst h <;> simp [h9]
  | c :: bytes, value, cnt, i, r, h9, h => by
    rw [bytes_to_str_loop] at h
    split_ifs at h with h1 h2 h3
    · simp at h; subst h; simp [h9]
    · simp at h; subst h; simp [h9]
    · simp at h; subst h
      norm_num at h2
      exact ⟨by simp, by simp; omega⟩
    · norm_num at h2
      have := loop_count bc bytes _ (cnt + 1) (i + 7) r (by omega) h
      exact ⟨by omega, this.2⟩

end unsigned_leb128

/-! ## The signed loop follows the unsigned one -/

theorem wrap_i64_step (a t : Nat) :
    wrap_i64 (wrap_i64 (a : Int) + wrap_i64 (t : Int))
      = wrap_i64 (((a + t % 2 ^ 64) % 2 ^ 64 : Nat) : Int) := by
  unfold wrap_i64
  push_cast
  omega

theorem to_u64_natCast (x : Nat) (h : x < 2 ^ 64) : to_u64 (x : Int) = x := by
  unfold to_u64
  omega

namespace signed_leb128

theorem loop_eq_unsigned (bc : Int) : ∀ (bytes : List Nat) (a : Nat) (cnt : Int) (i : Nat),
    bytes_to_str_loop bc bytes (wrap_i64 (a : Int)) cnt i
      = (unsigned_leb128.bytes_to_str_loop bc bytes a cnt i).map
          (fun r => (r.1, wrap_i64 (r.2.1 : Int), r.2.2))
  | [], a, cnt, i => by
    rw [bytes_to_str_loop, unsigned_leb128.bytes_to_str_loop]
    split_ifs <;> simp
  | c :: bytes, a, cnt, i => by
    have hc := and_127_lt c
    have hstep : wrap_i64 (wrap_i64 (a : Int) + i64_shl ((c &&& 127 : Nat) : Int) i)
        = wrap_i64 (((a + ((c &&& 127) <<< i) % 2 ^ 64) % 2 ^ 64 : Nat) : Int) := by
      rw [i64_shl, to_u64_natCast _ (by omega)]
      exact wrap_i64_step a ((c &&& 127) <<< i)
    rw [bytes_to_str_loop, unsigned_leb128.bytes_to_str_loop]
    split_ifs with h1 h2 h3
    · simp
    · simp
    · simp [hstep]
    · simp only [hstep]
      exact loop_eq_unsigned bc bytes _ (cnt + 1) (i + 7)

end signed_leb128

theorem getD_take_lt : ∀ (l : List Nat) (n i : Nat), i < n → (l.take n).getD i 0 = l.getD i 0
  | [], n, i, _ => by simp
  | _ :: _, 0, i, h => by omega
  | a :: l, n + 1, 0, _ => by simp
  | a :: l, n + 1, i + 1, h => by
    simpa using getD_take_lt l n i (by omega)

theorem wrap_i64_zero : wrap_i64 ((0 : Nat) : Int) = 0 := by decide

namespace signed_leb128

theorem loop_zero_eq_unsigned (bc : Int) (bytes : List Nat) :
    bytes_to_str_loop bc bytes 0 0 0
      = (unsigned_leb128.bytes_to_str_loop bc bytes 0 0 0).map
          (fun r => (r.1, wrap_i64 (r.2.1 : Int), r.2.2)) := by
  have := loop_eq_unsigned bc bytes 0 0 0
  rwa [wrap_i64_zero] at this

end signed_leb128

/-- Octets that all carry the continuation bit exhaust a `byte_count` of at most nine,
whatever is stored behind them. -/
theorem unsigned_leb128.loop_exhaust_more (pre rest : List Nat) (h9 : pre.length ≤ 9)
    (hcont : ∀ c ∈ pre, c &&& 128 ≠ 0) :
    unsigned_leb128.bytes_to_str_loop pre.length (pre ++ rest) 0 0 0
      = some (.BYTES_TOO_SHORT, accumulate pre 0 0, (pre.length : Int)) := by
  have hrun := unsigned_leb128.loop_run pre.length pre rest 0 0 0 hcont (by omega) (by omega)
  rw [hrun, unsigned_leb128.bytes_to_str_loop.eq_def, if_pos (by omega)]
  simp

/-! ## The emitting loop -/

theorem low_bits (y : Nat) (h : y < 128) :
    (y ||| 128) = y + 128 ∧ (y + 128) &&& 127 = y ∧ (y + 128) &&& 128 = 128
      ∧ y &&& 127 = y ∧ y &&& 128 = 0 := by
  revert y
  decide

theorem and_127_eq_mod (v : Nat) : v &&& 127 = v % 128 :=
  Nat.and_pow_two_sub_one_eq_mod v 7

theorem shr_7_eq_div (v : Nat) : v >>> 7 = v / 128 :=
  Nat.shiftRight_eq_div_pow v 7

theorem emit_loop_eq : ∀ (fuel v : Nat) (out : List Nat), 1 ≤ fuel → v < 128 ^ fuel →
    emit_loop fuel v out = some (out ++ leb_groups fuel v)
  | 0, _, _, h, _ => by omega
  | fuel + 1, v, out, _, hv => by
    have hm : v % 128 < 128 := Nat.mod_lt _ (by norm_num)
    rw [emit_loop, leb_groups]
    simp only [and_127_eq_mod, shr_7_eq_div, (low_bits _ hm).1]
    by_cases h0 : v / 128 = 0
    · simp [h0]
    · have hv2 : v / 128 < 128 ^ fuel := by
        rw [Nat.div_lt_iff_lt_mul (by norm_num)]
        rw [Nat.pow_succ] at hv; exact hv
      have hf : 1 ≤ fuel := by
        rcases fuel with _ | f
        · simp at hv2; exact absurd hv2 h0
        · omega
      simp only [h0, ne_eq, not_false_eq_true, if_true]
      rw [emit_loop_eq fuel (v / 128) _ hf hv2]
      simp

theorem leb_groups_length : ∀ (fuel n v : Nat), 1 ≤ n → v < 128 ^ n →
    (leb_groups fuel v).length ≤ n
  | 0, n, v, _, _ => by simp [leb_groups]
  | fuel + 1, n, v, hn, hv => by
    rw [leb_groups]
    by_cases h0 : v / 128 = 0
    · simp [h0]; exact hn
    · obtain ⟨m, rfl⟩ : ∃ m, n = m + 1 := ⟨n - 1, by omega⟩
      have hv2 : v / 128 < 128 ^ m := by
        rw [Nat.div_lt_iff_lt_mul (by norm_num)]
        rw [Nat.pow_succ] at hv; exact hv
      have hm : 1 ≤ m := by
        rcases m with _ | f
        · simp at hv2; exact absurd hv2 h0
        · omega
      have := leb_groups_length fuel m (v / 128) hm hv2
      simp only [h0, ne_eq, not_false_eq_true, if_true, List.length_cons]
      omega

/-- The shape of the emitted octets: a run with the continuation bit, then one octet below
128 that is zero only when it stands alone; together they carry exactly `v`. -/
theorem leb_groups_shape : ∀ (fuel v : Nat), 1 ≤ fuel → v < 128 ^ fuel →
    ∃ (pre : List Nat) (l : Nat), leb_groups fuel v = pre ++ [l]
      ∧ (∀ c ∈ pre, c &&& 128 = 128 ∧ c < 256) ∧ l < 128 ∧ (l = 0 → pre = [])
      ∧ payload (pre ++ [l]) = v
  | 0, _, h, _ => by omega
  | fuel + 1, v, _, hv => by
    have hm : v % 128 < 128 := Nat.mod_lt _ (by norm_num)
    rw [leb_groups]
    by_cases h0 : v / 128 = 0
    · refine ⟨[], v % 128, by simp [h0], by simp, hm, fun _ => rfl, ?_⟩
      simp only [List.nil_append, payload, (low_bits _ hm).2.2.2.1]
      omega
    · have hv2 : v / 128 < 128 ^ fuel := by
        rw [Nat.div_lt_iff_lt_mul (by norm_num)]
        rw [Nat.pow_succ] at hv; exact hv
      have hf : 1 ≤ fuel := by
        rcases fuel with _ | f
        · simp at hv2; exact absurd hv2 h0
        · omega
      obtain ⟨pre, l, e, hpre, hl, hz, hp⟩ := leb_groups_shape fuel (v / 128) hf hv2
      refine ⟨(v % 128 + 128) :: pre, l, by simp [h0, e], ?_, hl, ?_, ?_⟩
      · intro c hc
        rcases List.mem_cons.mp hc with rfl | hc
        · exact ⟨(low_bits _ hm).2.2.1, by omega⟩
        · exact hpre c hc
      · intro hl0
        have hp0 := hz hl0
        subst hp0; subst hl0
        simp [payload] at hp
        omega
      · rw [List.cons_append, payload, hp, (low_bits _ hm).2.1]
        omega

/-- Octet `i` of the emitted sequence carries bits `7i .. 7i+6` of `v`. -/
theorem leb_groups_bits : ∀ (fuel v i : Nat), i < (leb_groups fuel v).length →
    (leb_groups fuel v).getD i 0 &&& 127 = (v >>> (7 * i)) &&& 127
  | 0, _, _, h => by simp [leb_groups] at h
  | fuel + 1, v, i, h => by
    have hm : v % 128 < 128 := Nat.mod_lt _ (by norm_num)
    rw [leb_groups] at h ⊢
    by_cases h0 : v / 128 = 0
    · simp only [h0, ne_eq, not_true_eq_false, if_false, List.length_singleton] at h ⊢
      obtain rfl : i = 0 := by omega
      simp [and_127_eq_mod]
    · simp only [h0, ne_eq, not_false_eq_true, if_true, List.length_cons] at h ⊢
      rcases i with _ | j
      · simp only [List.getD_cons_zero, (low_bits _ hm).2.1]
        simp [and_127_eq_mod]
      · rw [List.getD_cons_succ, leb_groups_bits fuel (v / 128) j (by omega)]
        rw [Nat.shiftRight_eq_div_pow, Nat.shiftRight_eq_div_pow, Nat.div_div_eq_div_mul]
        congr 2
        rw [Nat.mul_succ, Nat.pow_add, Nat.mul_comm]

/-! ## Numerals: what the stream writes, the parsers read back -/

theorem digit_char_facts : ∀ (up : Bool) (d : Nat), d < 16 →
    digit_value (digit_char up d) = some d ∧ iswspace (digit_char up d) = false
      ∧ (digit_char up d).toNat ≠ 45 ∧ (digit_char up d).toNat ≠ 43
      ∧ (digit_char up d).toNat ≠ 120 ∧ (digit_char up d).toNat ≠ 88
      ∧ digit_char up d ≠ Char.ofNat 0 := by
  decide

theorem put_digits_eq_map (base : Nat) (up : Bool) : ∀ (fuel n : Nat) (acc : List Nat),
    put_digits base up fuel n (acc.map (digit_char up))
      = (digits_of base fuel n acc).map (digit_char up)
  | 0, _, _ => rfl
  | fuel + 1, n, acc => by
    rw [put_digits, digits_of]
    split_ifs
    · simp
    · rw [← List.map_cons, put_digits_eq_map base up fuel]

theorem digits_of_spec (base : Nat) (hb : 2 ≤ base) : ∀ (fuel n : Nat) (acc : List Nat),
    1 ≤ fuel → n < base ^ fuel →
    ∃ ds : List Nat, ds ≠ [] ∧ digits_of base fuel n acc = ds ++ acc
      ∧ (∀ d ∈ ds, d < base) ∧ digits_value base ds 0 = n
  | 0, _, _, h, _ => by omega
  | fuel + 1, n, acc, _, hn => by
    have hm : n % base < base := Nat.mod_lt _ (by omega)
    rw [digits_of]
    by_cases h0 : n / base = 0
    · refine ⟨[n % base], by simp, by simp [h0], by simpa using hm, ?_⟩
      have : n < base := (Nat.div_eq_zero_iff (by omega)).mp h0
      simp [digits_value, Nat.mod_eq_of_lt this]
    · have hn2 : n / base < base ^ fuel := by
        rw [Nat.div_lt_iff_lt_mul (by omega)]
        rw [Nat.pow_succ] at hn; exact hn
      have hf : 1 ≤ fuel := by
        rcases fuel with _ | f
        · simp at hn2; exact absurd hn2 h0
        · omega
      obtain ⟨ds, -, e, hd, hv⟩ := digits_of_spec base hb fuel (n / base) ((n % base) :: acc)
        hf hn2
      refine ⟨ds ++ [n % base], by simp, by simp [h0, e], ?_, ?_⟩
      · intro d hd2
        rcases List.mem_append.mp hd2 with h | h
        · exact hd d h
        · simp at h; omega
      · unfold digits_value at hv ⊢
        rw [List.foldl_append, hv]
        simp only [List.foldl_cons, List.foldl_nil]
        exact Nat.div_add_mod' n base

theorem scan_digits_map (base : Nat) (up : Bool) (hb : base ≤ 16) :
    ∀ (ds : List Nat) (rest : List Char) (acc k : Nat), (∀ d ∈ ds, d < base) →
    scan_digits base (ds.map (digit_char up) ++ rest) acc k
      = scan_digits base rest (digits_value base ds acc) (k + ds.length)
  | [], rest, acc, k, _ => by simp [digits_value]
  | d :: ds, rest, acc, k, hd => by
    have hd0 : d < base := hd d (List.mem_cons_self _ _)
    have hv := (digit_char_facts up d (by omega)).1
    rw [List.map_cons, List.cons_append, scan_digits, hv]
    simp only [hd0, if_true]
    rw [scan_digits_map base up hb ds rest _ _ (fun x hx => hd x (List.mem_cons_of_mem _ hx))]
    simp only [digits_value, List.foldl_cons, List.length_cons]
    congr 1
    omega

theorem deref_length (s : List Char) : deref s s.length = Char.ofNat 0 := by
  unfold deref
  exact List.getD_eq_default _ _ (le_refl _)

/-- A numeral written by the stream has no `0x` to skip, and its digits are read back
to the number it stands for. -/
theorem numeral_scan (base : Nat) (up : Bool) (hb : base ≤ 16) (ds : List Nat)
    (hd : ∀ d ∈ ds, d < base) :
    take_0x base (ds.map (digit_char up)) = ds.map (digit_char up)
      ∧ scan_digits base (ds.map (digit_char up)) 0 0 = (digits_value base ds 0, ds.length, []) := by
  constructor
  · rcases ds with _ | ⟨d0, _ | ⟨d1, _ | ⟨d2, ds⟩⟩⟩
    · rfl
    · rfl
    · rfl
    · have h1 : d1 < 16 := by
        have := hd d1 (by simp); omega
      have f := digit_char_facts up d1 h1
      simp only [List.map_cons, take_0x]
      rw [if_neg]
      rintro ⟨-, -, h | h, -⟩
      · exact f.2.2.2.2.1 h
      · exact f.2.2.2.2.2.1 h
  · have := scan_digits_map base up hb ds [] 0 0 hd
    rw [List.append_nil] at this
    rw [this, scan_digits]
    simp

theorem numeral_head (up : Bool) (ds : List Nat) (hne : ds ≠ []) (hd : ∀ d ∈ ds, d < 16) :
    ∃ (c : Char) (t : List Char), ds.map (digit_char up) = c :: t ∧ iswspace c = false
      ∧ c.toNat ≠ 45 ∧ c.toNat ≠ 43 := by
  rcases ds with _ | ⟨d0, ds⟩
  · exact absurd rfl hne
  · have f := digit_char_facts up d0 (hd d0 (by simp))
    exact ⟨digit_char up d0, ds.map (digit_char up), rfl, f.2.1, f.2.2.1, f.2.2.2.1⟩

theorem wcstoul_numeral (U base : Nat) (up : Bool) (hb : base ≤ 16) (ds : List Nat)
    (hne : ds ≠ []) (hd : ∀ d ∈ ds, d < base) :
    wcstoul U (ds.map (digit_char up)) base
      = if U < digits_value base ds 0 then ⟨U, ds.length, true⟩
        else ⟨digits_value base ds 0, ds.length, false⟩ := by
  obtain ⟨c, t, e, hw, h45, h43⟩ := numeral_head up ds hne (fun d h => by
    have := hd d h; omega)
  have hs := numeral_scan base up hb ds hd
  have hl : ds.length ≠ 0 := by
    intro h; exact hne (List.length_eq_zero.mp h)
  have hdw : (ds.map (digit_char up)).dropWhile iswspace = ds.map (digit_char up) := by
    rw [e, List.dropWhile_cons_of_neg (by simp [hw])]
  have hsg : take_sign (ds.map (digit_char up)) = (false, ds.map (digit_char up)) := by
    rw [e, take_sign, if_neg h45, if_neg h43]
  unfold wcstoul
  simp only [hdw, hsg, hs.1, hs.2, hl, if_false, List.length_nil, Nat.sub_zero,
    List.length_map, Bool.false_eq_true]

theorem wcstoll_numeral (base : Nat) (up : Bool) (hb : base ≤ 16) (ds : List Nat)
    (hne : ds ≠ []) (hd : ∀ d ∈ ds, d < base) :
    wcstoll (ds.map (digit_char up)) base
      = if LLONG_MAX < (digits_value base ds 0 : Int) then ⟨LLONG_MAX, ds.length, true⟩
        else ⟨(digits_value base ds 0 : Int), ds.length, false⟩ := by
  obtain ⟨c, t, e, hw, h45, h43⟩ := numeral_head up ds hne (fun d h => by
    have := hd d h; omega)
  have hs := numeral_scan base up hb ds hd
  have hl : ds.length ≠ 0 := by
    intro h; exact hne (List.length_eq_zero.mp h)
  have hdw : (ds.map (digit_char up)).dropWhile iswspace = ds.map (digit_char up) := by
    rw [e, List.dropWhile_cons_of_neg (by simp [hw])]
  have hsg : take_sign (ds.map (digit_char up)) = (false, ds.map (digit_char up)) := by
    rw [e, take_sign, if_neg h45, if_neg h43]
  unfold wcstoll
  simp only [hdw, hsg, hs.1, hs.2, hl, if_false, List.length_nil, Nat.sub_zero,
    List.length_map, Bool.false_eq_true]

theorem wcstoll_minus_numeral (base : Nat) (up : Bool) (hb : base ≤ 16) (ds : List Nat)
    (hne : ds ≠ []) (hd : ∀ d ∈ ds, d < base) :
    wcstoll (Char.ofNat 45 :: ds.map (digit_char up)) base
      = if -(digits_value base ds 0 : Int) < LLONG_MIN then ⟨LLONG_MIN, ds.length + 1, true⟩
        else ⟨-(digits_value base ds 0 : Int), ds.length + 1, false⟩ := by
  have hs := numeral_scan base up hb ds hd
  have hl : ds.length ≠ 0 := by
    intro h; exact hne (List.length_eq_zero.mp h)
  have hdw : (Char.ofNat 45 :: ds.map (digit_char up)).dropWhile iswspace
      = Char.ofNat 45 :: ds.map (digit_char up) := by
    rw [List.dropWhile_cons_of_neg (by decide)]
  have hsg : take_sign (Char.ofNat 45 :: ds.map (digit_char up))
      = (true, ds.map (digit_char up)) := by
    rw [take_sign, if_pos (by decide)]
  unfold wcstoll
  simp only [hdw, hsg, hs.1, hs.2, hl, if_false, if_true, List.length_nil, Nat.sub_zero,
    List.length_map, List.length_cons]

theorem str2uint_numeral (U base : Nat) (up : Bool) (hb : base ≤ 16) (ds : List Nat)
    (hne : ds ≠ []) (hd : ∀ d ∈ ds, d < base) (res : Nat) (hU : digits_value base ds 0 ≤ U) :
    str2uint U (some (ds.map (digit_char up))) res base = (.NONE, digits_value base ds 0) := by
  obtain ⟨c, t, e, hw, -, -⟩ := numeral_head up ds hne (fun d h => by
    have := hd d h; omega)
  have hl : ds.length ≠ 0 := by
    intro h; exact hne (List.length_eq_zero.mp h)
  have h0 : iswspace (deref (ds.map (digit_char up)) 0) = false := by
    rw [e]; simpa [deref] using hw
  have hend : deref (ds.map (digit_char up)) ds.length = Char.ofNat 0 := by
    have := deref_length (ds.map (digit_char up))
    rwa [List.length_map] at this
  unfold str2uint
  simp only [h0, wcstoul_numeral U base up hb ds hne hd, if_neg (not_lt.mpr hU), hl, hend,
    ne_eq, not_true_eq_false, or_self, if_false, Bool.false_eq_true]

theorem str2int_numeral (base : Nat) (up : Bool) (hb : base ≤ 16) (ds : List Nat)
    (hne : ds ≠ []) (hd : ∀ d ∈ ds, d < base) (res : Int) :
    str2int (some (ds.map (digit_char up))) res base
      = if LLONG_MAX < (digits_value base ds 0 : Int) then (.OVERFLOW, LLONG_MAX)
        else (.NONE, (digits_value base ds 0 : Int)) := by
  obtain ⟨c, t, e, hw, -, -⟩ := numeral_head up ds hne (fun d h => by
    have := hd d h; omega)
  have hl : ds.length ≠ 0 := by
    intro h; exact hne (List.length_eq_zero.mp h)
  have h0 : iswspace (deref (ds.map (digit_char up)) 0) = false := by
    rw [e]; simpa [deref] using hw
  have hend : deref (ds.map (digit_char up)) ds.length = Char.ofNat 0 := by
    have := deref_length (ds.map (digit_char up))
    rwa [List.length_map] at this
  have hmm : LLONG_MAX ≠ LLONG_MIN := by decide
  simp only [str2int, h0, Bool.false_eq_true, if_false, wcstoll_numeral base up hb ds hne hd]
  by_cases h1 : LLONG_MAX < (digits_value base ds 0 : Int)
  · simp only [h1, if_true, hl, hend, ne_eq, not_true_eq_false, or_self, if_false, hmm]
  · simp only [h1, if_false, hl, hend, ne_eq, not_true_eq_false, or_self, Bool.false_eq_true]

theorem str2int_minus_numeral (base : Nat) (up : Bool) (hb : base ≤ 16) (ds : List Nat)
    (hne : ds ≠ []) (hd : ∀ d ∈ ds, d < base) (res : Int)
    (hn : LLONG_MIN ≤ -(digits_value base ds 0 : Int)) :
    str2int (some (Char.ofNat 45 :: ds.map (digit_char up))) res base
      = (.NONE, -(digits_value base ds 0 : Int)) := by
  have h0 : iswspace (deref (Char.ofNat 45 :: ds.map (digit_char up)) 0) = false := rfl
  have hend : deref (Char.ofNat 45 :: ds.map (digit_char up)) (ds.length + 1)
      = Char.ofNat 0 := by
    have := deref_length (Char.ofNat 45 :: ds.map (digit_char up))
    rwa [List.length_cons, List.length_map] at this
  simp only [str2int, h0, Bool.false_eq_true, if_false,
    wcstoll_minus_numeral base up hb ds hne hd, not_lt.mpr hn, hend, ne_eq, not_true_eq_false,
    or_false, Nat.add_one_ne_zero]

/-! ## The zig-zag steps -/

theorem xor_all_ones (x : Nat) (h : x < 2 ^ 64) : x ^^^ (2 ^ 64 - 1) = 2 ^ 64 - 1 - x := by
  apply Nat.eq_of_testBit_eq
  intro i
  have e : 2 ^ 64 - 1 - x = 2 ^ 64 - (x + 1) := by omega
  rw [e, Nat.testBit_xor, Nat.testBit_two_pow_sub_one, Nat.testBit_two_pow_sub_succ h]
  by_cases hi : i < 64
  · simp [hi]
  · have hx : x.testBit i = false :=
      Nat.testBit_lt_two_pow (lt_of_lt_of_le h (Nat.pow_le_pow_right (by norm_num) (by omega)))
    simp [hi, hx]

theorem to_u64_lt (x : Int) : to_u64 x < 2 ^ 64 := by
  unfold to_u64
  omega

theorem to_u64_wrap (x : Int) : to_u64 (wrap_i64 x) = to_u64 x := by
  unfold to_u64 wrap_i64
  omega

theorem wrap_to_u64 (x : Int) (h1 : -9223372036854775808 ≤ x) (h2 : x < 9223372036854775808) :
    wrap_i64 ((to_u64 x : Nat) : Int) = x := by
  unfold to_u64 wrap_i64
  omega

/-- The zig-zag step of `str_to_bytes` in arithmetic: `2 v` for `v >= 0`, `-2 v - 1` for
`v < 0`. -/
theorem zigzag_encode_eq (v : Int) (h1 : -9223372036854775808 ≤ v)
    (h2 : v < 9223372036854775808) :
    (signed_leb128.zigzag_encode v : Int) = if 0 ≤ v then 2 * v else -2 * v - 1 := by
  have hs : to_u64 (i64_shl v 1) = (to_u64 v * 2) % 2 ^ 64 := by
    rw [i64_shl, to_u64_wrap, Nat.shiftLeft_eq]
    unfold to_u64
    omega
  have hlt : (to_u64 v * 2) % 2 ^ 64 < 2 ^ 64 := Nat.mod_lt _ (by norm_num)
  unfold signed_leb128.zigzag_encode
  rw [i64_xor, to_u64_wrap, hs]
  by_cases hv : 0 ≤ v
  · have hr : to_u64 (i64_sar v 63) = 0 := by
      unfold i64_sar to_u64
      norm_num
      omega
    rw [hr, Nat.xor_zero, if_pos hv]
    unfold to_u64
    omega
  · have hr : to_u64 (i64_sar v 63) = 2 ^ 64 - 1 := by
      unfold i64_sar to_u64
      norm_num
      omega
    rw [hr, xor_all_ones _ hlt, if_neg hv]
    unfold to_u64
    omega

/-- The zig-zag step of `bytes_to_str` in arithmetic: `a / 2` for even `a`,
`-(a / 2) - 1` for odd `a` (division rounding down). -/
theorem zigzag_decode_eq (a : Int) (h1 : -9223372036854775808 ≤ a)
    (h2 : a < 9223372036854775808) :
    signed_leb128.zigzag_decode a = if a % 2 = 0 then a / 2 else -(a / 2) - 1 := by
  have hand : to_u64 a &&& to_u64 1 = to_u64 a % 2 := by
    have : to_u64 1 = 2 ^ 1 - 1 := by decide
    rw [this, Nat.and_pow_two_sub_one_eq_mod]
  have hsar : i64_sar a 1 = a / 2 := by
    unfold i64_sar
    norm_num
  have hpar : ((to_u64 a % 2 : Nat) : Int) = a % 2 := by
    unfold to_u64
    omega
  have hhalf : (to_u64 (a / 2) : Int) = (a / 2) % 18446744073709551616 := by
    unfold to_u64
    omega
  unfold signed_leb128.zigzag_decode
  rw [i64_xor, i64_neg, i64_and, hand, hsar, hpar]
  by_cases he : a % 2 = 0
  · have hr : to_u64 (wrap_i64 (-wrap_i64 (a % 2))) = 0 := by
      rw [he]; decide
    rw [hr, Nat.xor_zero, if_pos he]
    unfold wrap_i64
    omega
  · have he1 : a % 2 = 1 := by omega
    have hr : to_u64 (wrap_i64 (-wrap_i64 (a % 2))) = 2 ^ 64 - 1 := by
      rw [he1]; decide
    have hlt := to_u64_lt (a / 2)
    rw [hr, xor_all_ones _ hlt, if_neg he]
    unfold wrap_i64
    omega

/-! ## From a value to its text, its octets and back -/

theorem put_unsigned_numeral (base : Nat) (up : Bool) (n : Nat) (hb : 2 ≤ base)
    (hn : n < 2 ^ 64) :
    ∃ ds : List Nat, ds ≠ [] ∧ (∀ d ∈ ds, d < base) ∧ digits_value base ds 0 = n
      ∧ put_unsigned base up n = ds.map (digit_char up) := by
  have hn2 : n < base ^ 64 :=
    lt_of_lt_of_le hn (Nat.pow_le_pow_left hb 64)
  obtain ⟨ds, hne, e, hd, hv⟩ := digits_of_spec base hb 64 n [] (by norm_num) hn2
  refine ⟨ds, hne, hd, hv, ?_⟩
  have := put_digits_eq_map base up 64 n []
  rw [List.map_nil] at this
  rw [put_unsigned, this, e, List.append_nil]

theorem trim_some (t : List Char) (c : Char) (hc0 : c ≠ Char.ofNat 0)
    (hcs : iswspace c = false) : ∃ w, trim (t ++ [c]) = some w := by
  have hd : deref (t ++ [c]) t.length = c := by
    unfold deref
    rw [List.getD_append_right _ _ _ _ (le_refl _)]
    simp
  have he : trim_end (t ++ [c]) (t ++ [c]).length = some t.length := by
    rw [List.length_append, List.length_singleton, trim_end, hd]
    simp [hc0, hcs]
  unfold trim
  simp only [he]
  exact ⟨_, rfl⟩

theorem trim_numeral (up : Bool) (front : List Char) (ds : List Nat) (hne : ds ≠ [])
    (hd : ∀ d ∈ ds, d < 16) : ∃ w, trim (front ++ ds.map (digit_char up)) = some w := by
  have hsplit := List.dropLast_append_getLast hne
  have f := digit_char_facts up (ds.getLast hne) (hd _ (List.getLast_mem hne))
  have e : front ++ ds.map (digit_char up)
      = (front ++ ds.dropLast.map (digit_char up)) ++ [digit_char up (ds.getLast hne)] := by
    conv_lhs => rw [← hsplit]
    simp
  rw [e]
  exact trim_some _ _ f.2.2.2.2.2.2 f.2.1

namespace unsigned_leb128

/-- The loop on a run of continuation octets followed by a closing octet. -/
theorem loop_stop_append (bc : Int) (pre : List Nat) (l : Nat) (rest : List Nat)
    (hpre : ∀ c ∈ pre, c &&& 128 ≠ 0) (hl : l &&& 128 = 0) (h9 : pre.length < 9)
    (hbc : (pre.length : Int) < bc) :
    bytes_to_str_loop bc (pre ++ l :: rest) 0 0 0
      = some (.NONE, payload (pre ++ [l]), (pre.length : Int) + 1) := by
  have hrun := loop_run bc pre (l :: rest) 0 0 0 hpre (by omega) (by omega)
  rw [hrun, bytes_to_str_loop, if_neg (by omega), if_neg (by omega)]
  simp only [hl, if_true]
  rw [← accumulate_append pre l 0 0,
    accumulate_eq _ 0 0 (by norm_num) (by rw [List.length_append, List.length_singleton]; omega)]
  simp

/-- The octets emitted for a value below `2 ^ 63` are at most nine and decode to it. -/
theorem loop_leb_groups (v : Nat) (hv : v < 2 ^ 63) :
    bytes_to_str_loop (leb_groups 10 v).length (leb_groups 10 v) 0 0 0
        = some (.NONE, v, ((leb_groups 10 v).length : Int))
      ∧ (leb_groups 10 v).length ≤ 9 := by
  have hv9 : v < 128 ^ 9 := lt_of_lt_of_le hv (by norm_num)
  have hv10 : v < 128 ^ 10 := lt_trans hv (by norm_num)
  have hlen := leb_groups_length 10 9 v (by norm_num) hv9
  obtain ⟨pre, l, e, hpre, hl, -, hp⟩ := leb_groups_shape 10 v (by norm_num) hv10
  have hlen2 : (leb_groups 10 v).length = pre.length + 1 := by rw [e]; simp
  refine ⟨?_, hlen⟩
  have := loop_stop_append (leb_groups 10 v).length pre l []
    (fun c hc => by have := (hpre c hc).1; omega) (low_bits l hl).2.2.2.2 (by omega)
    (by omega)
  rw [hp, ← e] at this
  rw [this, hlen2]
  simp

theorem stream_u64_eq (int_display_opt : integer_display_option) (v : Nat) :
    ∃ up : Bool, stream_u64 int_display_opt v = put_unsigned (radix_of int_display_opt) up v := by
  cases int_display_opt
  · exact ⟨false, rfl⟩
  · exact ⟨true, rfl⟩
  · exact ⟨false, rfl⟩

theorem radix_of_bounds (int_display_opt : integer_display_option) :
    2 ≤ radix_of int_display_opt ∧ radix_of int_display_opt ≤ 16 := by
  cases int_display_opt <;> decide

/-- Encoding the text the stream writes for `v`: the parser returns `NONE` with `v` when
`unsigned long` can hold it, and the emitting loop runs on `v`. -/
theorem str_to_bytes_text (U value0 : Nat) (thisptr : unsigned_leb128) (v : Nat)
    (int_display_opt : integer_display_option) (hv : v < 2 ^ 64) (hU : v ≤ U) :
    str_to_bytes U value0 thisptr (stream_u64 int_display_opt v) int_display_opt
      = some ⟨.NONE, leb_groups 10 v, ((leb_groups 10 v).length : Int),
          { thisptr with string_to_bytes_result := leb_groups 10 v }⟩ := by
  obtain ⟨up, hs⟩ := stream_u64_eq int_display_opt v
  obtain ⟨hb2, hb16⟩ := radix_of_bounds int_display_opt
  obtain ⟨ds, hne, hd, hval, hput⟩ := put_unsigned_numeral (radix_of int_display_opt) up v hb2 hv
  obtain ⟨w, hw⟩ := trim_numeral up [] ds hne (fun d h => by have := hd d h; omega)
  rw [List.nil_append] at hw
  have hp := str2uint_numeral U (radix_of int_display_opt) up hb16 ds hne hd value0
    (by rw [hval]; exact hU)
  rw [hval] at hp
  have he := emit_loop_eq 10 v [] (by norm_num) (lt_trans hv (by norm_num))
  rw [List.nil_append] at he
  rw [hs, hput]
  simp only [str_to_bytes, hw, hp, he, Option.map_some']

end unsigned_leb128

namespace signed_leb128

/-- The two parses at the head of `signed_leb128::str_to_bytes`, on the text the stream
writes for `v`, end with `NONE` and `v`: directly for a decimal text and for a
hexadecimal text of `v >= 0`; for the sixteen hexadecimal digits of `v < 0` through
`OVERFLOW` and `str2uint`, when `unsigned long` can hold the bit pattern. -/
theorem parse_text (U : Nat) (value0 : Int) (v : Int)
    (int_display_opt : integer_display_option) (h1 : -9223372036854775808 ≤ v)
    (h2 : v < 9223372036854775808)
    (hopt : int_display_opt = .DECIMAL ∨ 0 ≤ v ∨ to_u64 v ≤ U) :
    (if (str2int (some (stream_i64 int_display_opt v)) value0 (radix_of int_display_opt)).1
          = .OVERFLOW then
        ((str2uint U (some (stream_i64 int_display_opt v))
            (to_u64 (str2int (some (stream_i64 int_display_opt v)) value0
              (radix_of int_display_opt)).2) (radix_of int_display_opt)).1,
          wrap_i64 ((str2uint U (some (stream_i64 int_display_opt v))
            (to_u64 (str2int (some (stream_i64 int_display_opt v)) value0
              (radix_of int_display_opt)).2) (radix_of int_display_opt)).2 : Int))
      else str2int (some (stream_i64 int_display_opt v)) value0 (radix_of int_display_opt))
      = (.NONE, v)
    ∧ ∃ w, trim (stream_i64 int_display_opt v) = some w := by
  have hne : ¬ str_to_bytes_error_code.NONE = str_to_bytes_error_code.OVERFLOW := by decide
  -- the text of a number that `wcstoll` takes without a sign
  have plain : ∀ (base : Nat) (up : Bool) (n : Nat), 2 ≤ base → base ≤ 16 →
      (n : Int) ≤ LLONG_MAX →
      (str2int (some (put_unsigned base up n)) value0 base = (.NONE, (n : Int)))
        ∧ ∃ w, trim (put_unsigned base up n) = some w := by
    intro base up n hb2 hb16 hn
    have hn64 : n < 2 ^ 64 := by unfold LLONG_MAX at hn; omega
    obtain ⟨ds, hd0, hd, hval, hput⟩ := put_unsigned_numeral base up n hb2 hn64
    obtain ⟨w, hw⟩ := trim_numeral up [] ds hd0 (fun d h => by have := hd d h; omega)
    rw [List.nil_append] at hw
    rw [hput, str2int_numeral base up hb16 ds hd0 hd value0, hval, if_neg (not_lt.mpr hn)]
    exact ⟨rfl, w, hw⟩
  -- the sixteen hexadecimal digits of a negative number
  have wide : ∀ (up : Bool) (n : Nat), LLONG_MAX < (n : Int) → n < 2 ^ 64 → n ≤ U →
      (str2int (some (put_unsigned 16 up n)) value0 16 = (.OVERFLOW, LLONG_MAX))
        ∧ (∀ res, str2uint U (some (put_unsigned 16 up n)) res 16 = (.NONE, n))
        ∧ ∃ w, trim (put_unsigned 16 up n) = some w := by
    intro up n hn hn64 hU
    obtain ⟨ds, hd0, hd, hval, hput⟩ := put_unsigned_numeral 16 up n (by norm_num) hn64
    obtain ⟨w, hw⟩ := trim_numeral up [] ds hd0 hd
    rw [List.nil_append] at hw
    rw [hput, str2int_numeral 16 up (le_refl _) ds hd0 hd value0, hval, if_pos hn]
    refine ⟨rfl, ?_, w, hw⟩
    intro res
    have := str2uint_numeral U 16 up (le_refl _) ds hd0 hd res (by rw [hval]; exact hU)
    rwa [hval] at this
  have hex : ∀ up : Bool, (0 ≤ v ∨ to_u64 v ≤ U) →
      (if (str2int (some (put_unsigned 16 up (to_u64 v))) value0 16).1 = .OVERFLOW then
          ((str2uint U (some (put_unsigned 16 up (to_u64 v)))
              (to_u64 (str2int (some (put_unsigned 16 up (to_u64 v))) value0 16).2) 16).1,
            wrap_i64 ((str2uint U (some (put_unsigned 16 up (to_u64 v)))
              (to_u64 (str2int (some (put_unsigned 16 up (to_u64 v))) value0 16).2) 16).2 : Int))
        else str2int (some (put_unsigned 16 up (to_u64 v))) value0 16) = (.NONE, v)
      ∧ ∃ w, trim (put_unsigned 16 up (to_u64 v)) = some w := by
    intro up hc
    by_cases hv : 0 ≤ v
    · have hcast : ((to_u64 v : Nat) : Int) = v := by unfold to_u64; omega
      obtain ⟨hp, hw⟩ := plain 16 up (to_u64 v) (by norm_num) (le_refl _)
        (by rw [hcast]; unfold LLONG_MAX; omega)
      rw [hp, if_neg hne, hcast]
      exact ⟨rfl, hw⟩
    · have hU : to_u64 v ≤ U := by
        rcases hc with h | h
        · exact absurd h hv
        · exact h
      have hcast : ((to_u64 v : Nat) : Int) = v + 18446744073709551616 := by
        unfold to_u64; omega
      obtain ⟨hp, hq, hw⟩ := wide up (to_u64 v) (by rw [hcast]; unfold LLONG_MAX; omega)
        (to_u64_lt v) hU
      rw [hp, if_pos rfl, hq]
      refine ⟨?_, hw⟩
      simp only [Prod.mk.injEq, true_and]
      exact wrap_to_u64 v h1 h2
  cases int_display_opt with
  | DECIMAL =>
    by_cases hv : v < 0
    · have hs : stream_i64 .DECIMAL v
          = Char.ofNat 45 :: put_unsigned 10 false (-v).toNat := by
        simp only [stream_i64, hv, if_true]
      have hn64 : (-v).toNat < 2 ^ 64 := by omega
      obtain ⟨ds, hd0, hd, hval, hput⟩ := put_unsigned_numeral 10 false (-v).toNat
        (by norm_num) hn64
      obtain ⟨w, hw⟩ := trim_numeral false [Char.ofNat 45] ds hd0
        (fun d h => by have := hd d h; omega)
      have hp := str2int_minus_numeral 10 false (by norm_num) ds hd0 hd value0
        (by rw [hval]; unfold LLONG_MIN; omega)
      have hneg : -(((-v).toNat : Nat) : Int) = v := by omega
      rw [hval, hneg] at hp
      rw [hs, hput]
      refine ⟨?_, w, hw⟩
      show (if (str2int _ value0 10).1 = .OVERFLOW then _ else str2int _ value0 10) = _
      rw [hp, if_neg hne]
    · have hs : stream_i64 .DECIMAL v = put_unsigned 10 false v.toNat := by
        simp only [stream_i64, hv, if_false]
      have hcast : ((v.toNat : Nat) : Int) = v := by omega
      obtain ⟨hp, hw⟩ := plain 10 false v.toNat (by norm_num) (by norm_num)
        (by rw [hcast]; unfold LLONG_MAX; omega)
      rw [hs]
      refine ⟨?_, hw⟩
      show (if (str2int _ value0 10).1 = .OVERFLOW then _ else str2int _ value0 10) = _
      rw [hp, if_neg hne, hcast]
  | HEX_UPPER_CASE =>
    exact hex true (by
      rcases hopt with h | h
      · cases h
      · exact h)
  | HEX_LOWER_CASE =>
    exact hex false (by
      rcases hopt with h | h
      · cases h
      · exact h)

/-- Encoding the text the stream writes for `v`: `NONE`, and the emitting loop runs on
the zig-zag form of `v`. -/
theorem str_to_bytes_signed_text (U : Nat) (value0 : Int) (thisptr : signed_leb128) (v : Int)
    (int_display_opt : integer_display_option) (h1 : -9223372036854775808 ≤ v)
    (h2 : v < 9223372036854775808)
    (hopt : int_display_opt = .DECIMAL ∨ 0 ≤ v ∨ to_u64 v ≤ U) :
    str_to_bytes U value0 thisptr (stream_i64 int_display_opt v) int_display_opt
      = some ⟨.NONE, leb_groups 10 (zigzag_encode v),
          ((leb_groups 10 (zigzag_encode v)).length : Int),
          { thisptr with string_to_bytes_result := leb_groups 10 (zigzag_encode v) }⟩ := by
  obtain ⟨hp, w, hw⟩ := parse_text U value0 v int_display_opt h1 h2 hopt
  have hz : zigzag_encode v < 128 ^ 10 :=
    lt_trans (to_u64_lt _) (by norm_num)
  have he := emit_loop_eq 10 (zigzag_encode v) [] (by norm_num) hz
  rw [List.nil_append] at he
  simp only [str_to_bytes, hw, hp, he, Option.map_some']

/-- What `bytes_to_str` returns once its loop has left with `NONE`. -/
theorem bytes_to_str_of_loop (thisptr : signed_leb128) (bytes : List Nat) (bc : Int)
    (int_display_opt : integer_display_option) (value cnt : Int)
    (h : bytes_to_str_loop bc bytes 0 0 0 = some (.NONE, value, cnt)) :
    bytes_to_str thisptr bytes bc int_display_opt
      = some ⟨.NONE, cnt, some (stream_i64 int_display_opt (zigzag_decode value)),
          { thisptr with
              bytes_to_string_result := (stream_i64 int_display_opt (zigzag_decode value)) }⟩ := by
  rw [bytes_to_str, h]

end signed_leb128

namespace unsigned_leb128

/-- A loop that leaves with `NONE` has consumed between one and nine octets, and its
value fits in seven bits for each octet consumed. -/
theorem loop_value_bound (bc : Int) : ∀ (bytes : List Nat) (value cnt v : Nat) (n : Int),
    value < 2 ^ (7 * cnt) →
    bytes_to_str_loop bc bytes value (cnt : Int) (7 * cnt) = some (.NONE, v, n) →
    ∃ m : Nat, n = (m : Int) ∧ cnt < m ∧ m ≤ 9 ∧ v < 2 ^ (7 * m)
  | [], value, cnt, v, n, _, h => by
    rw [bytes_to_str_loop] at h
    split_ifs at h <;> simp at h
  | c :: bs, value, cnt, v, n, hv, h => by
    rw [bytes_to_str_loop] at h
    split_ifs at h with h1 h2 h3
    · simp at h
    · simp at h
    · have hc9 : cnt < 9 := by norm_num at h2; omega
      have hacc := accumulate_eq [c] value (7 * cnt) hv (by simp; omega)
      simp only [accumulate] at hacc
      have hp := payload_lt [c]
      simp only [List.length_singleton, Nat.mul_one] at hp
      have hpow : 2 ^ (7 * (cnt + 1)) = 2 ^ (7 * cnt) * 2 ^ 7 := by
        rw [Nat.mul_succ, Nat.pow_add]
      have hle : 2 ^ (7 * cnt) * payload [c] ≤ 2 ^ (7 * cnt) * (2 ^ 7 - 1) :=
        Nat.mul_le_mul_left _ (by omega)
      simp only [Option.some.injEq, Prod.mk.injEq, true_and] at h
      obtain ⟨hv1, hn1⟩ := h
      refine ⟨cnt + 1, by rw [← hn1]; simp, by omega, by omega, ?_⟩
      rw [← hv1, hacc, hpow]
      have : 2 ^ (7 * cnt) * (2 ^ 7 - 1) + 2 ^ (7 * cnt) = 2 ^ (7 * cnt) * 2 ^ 7 := by
        rw [Nat.mul_sub, Nat.mul_one]
        have : 2 ^ (7 * cnt) ≤ 2 ^ (7 * cnt) * 2 ^ 7 := Nat.le_mul_of_pos_right _ (by norm_num)
        omega
      omega
    · have hc9 : cnt < 9 := by norm_num at h2; omega
      have hacc := accumulate_eq [c] value (7 * cnt) hv (by simp; omega)
      simp only [accumulate] at hacc
      have hp := payload_lt [c]
      simp only [List.length_singleton, Nat.mul_one] at hp
      have hpow : 2 ^ (7 * (cnt + 1)) = 2 ^ (7 * cnt) * 2 ^ 7 := by
        rw [Nat.mul_succ, Nat.pow_add]
      have hle : 2 ^ (7 * cnt) * payload [c] ≤ 2 ^ (7 * cnt) * (2 ^ 7 - 1) :=
        Nat.mul_le_mul_left _ (by omega)
      have hsum : 2 ^ (7 * cnt) * (2 ^ 7 - 1) + 2 ^ (7 * cnt) = 2 ^ (7 * cnt) * 2 ^ 7 := by
        rw [Nat.mul_sub, Nat.mul_one]
        have : 2 ^ (7 * cnt) ≤ 2 ^ (7 * cnt) * 2 ^ 7 := Nat.le_mul_of_pos_right _ (by norm_num)
        omega
      have e1 : ((cnt : Int) + 1) = ((cnt + 1 : Nat) : Int) := by simp
      have e2 : 7 * cnt + 7 = 7 * (cnt + 1) := by ring
      rw [e1, e2] at h
      obtain ⟨m, hm, hlt, h9, hvm⟩ := loop_value_bound bc bs _ (cnt + 1) v n
        (by rw [hacc, hpow]; omega) h
      exact ⟨m, hm, by omega, h9, hvm⟩

end unsigned_leb128

/-! ## Decoding: bounds that hold on every return -/

namespace unsigned_leb128

/-- Whatever code the loop leaves with, it has counted at most nine octets and its
value fits in seven bits for each octet counted. -/
theorem loop_bound_any (bc : Int) : ∀ (bytes : List Nat) (value cnt v : Nat) (n : Int)
    (err : bytes_to_str_error_code), value < 2 ^ (7 * cnt) → cnt ≤ 9 →
    bytes_to_str_loop bc bytes value (cnt : Int) (7 * cnt) = some (err, v, n) →
    ∃ m : Nat, n = (m : Int) ∧ cnt ≤ m ∧ m ≤ 9 ∧ v < 2 ^ (7 * m)
  | [], value, cnt, v, n, err, hv, h9, h => by
    rw [bytes_to_str_loop] at h
    split_ifs at h
    · simp only [Option.some.injEq, Prod.mk.injEq] at h
      exact ⟨cnt, h.2.2.symm, le_refl _, h9, by rw [← h.2.1]; exact hv⟩
    · simp only [Option.some.injEq, Prod.mk.injEq] at h
      exact ⟨cnt, h.2.2.symm, le_refl _, h9, by rw [← h.2.1]; exact hv⟩
  | c :: bs, value, cnt, v, n, err, hv, h9, h => by
    rw [bytes_to_str_loop] at h
    split_ifs at h with h1 h2 h3
    · simp only [Option.some.injEq, Prod.mk.injEq] at h
      exact ⟨cnt, h.2.2.symm, le_refl _, h9, by rw [← h.2.1]; exact hv⟩
    · simp only [Option.some.injEq, Prod.mk.injEq] at h
      exact ⟨cnt, h.2.2.symm, le_refl _, h9, by rw [← h.2.1]; exact hv⟩
    · exact
        let ⟨m, hm, hlt, hm9, hvm⟩ := loop_value_bound bc (c :: bs) value cnt v n hv (by
          have e : err = .NONE := by
            simp only [Option.some.injEq, Prod.mk.injEq] at h
            exact h.1.symm
          rw [bytes_to_str_loop, if_neg h1, if_neg h2]
          simp only [h3, if_true]
          rw [e] at h
          exact h)
        ⟨m, hm, by omega, hm9, hvm⟩
    · have hc9 : cnt < 9 := by norm_num at h2; omega
      have hacc := accumulate_eq [c] value (7 * cnt) hv (by simp; omega)
      simp only [accumulate] at hacc
      have hp := payload_lt [c]
      simp only [List.length_singleton, Nat.mul_one] at hp
      have hpow : 2 ^ (7 * (cnt + 1)) = 2 ^ (7 * cnt) * 2 ^ 7 := by
        rw [Nat.mul_succ, Nat.pow_add]
      have hle : 2 ^ (7 * cnt) * payload [c] ≤ 2 ^ (7 * cnt) * (2 ^ 7 - 1) :=
        Nat.mul_le_mul_left _ (by omega)
      have hsum : 2 ^ (7 * cnt) * (2 ^ 7 - 1) + 2 ^ (7 * cnt) = 2 ^ (7 * cnt) * 2 ^ 7 := by
        rw [Nat.mul_sub, Nat.mul_one]
        have : 2 ^ (7 * cnt) ≤ 2 ^ (7 * cnt) * 2 ^ 7 := Nat.le_mul_of_pos_right _ (by norm_num)
        omega
      have e1 : ((cnt : Int) + 1) = ((cnt + 1 : Nat) : Int) := by simp
      have e2 : 7 * cnt + 7 = 7 * (cnt + 1) := by ring
      rw [e1, e2] at h
      obtain ⟨m, hm, hlt, hm9, hvm⟩ := loop_bound_any bc bs _ (cnt + 1) v n err
        (by rw [hacc, hpow]; omega) (by omega) h
      exact ⟨m, hm, by omega, hm9, hvm⟩

/-- From the initial state the loop never leaves the 63 bits an `int64_t` holds without
its sign. -/
theorem loop_value_lt (bc : Int) (bytes : List Nat) (v : Nat) (n : Int)
    (err : bytes_to_str_error_code)
    (h : bytes_to_str_loop bc bytes 0 0 0 = some (err, v, n)) :
    v < 2 ^ 63 ∧ 0 ≤ n ∧ n ≤ 9 := by
  have h2 : bytes_to_str_loop bc bytes 0 ((0 : Nat) : Int) (7 * 0) = some (err, v, n) := h
  obtain ⟨m, hm, -, hm9, hvm⟩ := loop_bound_any bc bytes 0 0 v n err (by norm_num)
    (by norm_num) h2
  refine ⟨lt_of_lt_of_le hvm (Nat.pow_le_pow_right (by norm_num) (by omega)), ?_, ?_⟩ <;> omega

end unsigned_leb128

theorem wrap_i64_small (a : Nat) (h : a < 2 ^ 63) : wrap_i64 (a : Int) = (a : Int) := by
  unfold wrap_i64
  omega

namespace signed_leb128

/-- The `int64_t` accumulator of the signed loop is, as a number, the `uint64_t`
accumulator of the unsigned loop: no step of the accumulation wraps around. -/
theorem loop_eq_unsigned_exact (bc : Int) (bytes : List Nat) :
    bytes_to_str_loop bc bytes 0 0 0
      = (unsigned_leb128.bytes_to_str_loop bc bytes 0 0 0).map
          (fun r => (r.1, (r.2.1 : Int), r.2.2)) := by
  rw [loop_zero_eq_unsigned]
  cases h : unsigned_leb128.bytes_to_str_loop bc bytes 0 0 0 with
  | none => simp only [Option.map_none']
  | some r =>
    obtain ⟨err, v, n⟩ := r
    have hv := (unsigned_leb128.loop_value_lt bc bytes v n err h).1
    simp only [Option.map_some', wrap_i64_small v hv]

end signed_leb128

/-! ## Decoding: which octets the loop reads -/

namespace unsigned_leb128

/-- The loop reads no octet at or behind the index `min byte_count 9`: cutting the buffer
there changes nothing. -/
theorem loop_take (bc : Int) : ∀ (bytes : List Nat) (value cnt i : Nat),
    bytes_to_str_loop bc bytes value (cnt : Int) i
      = bytes_to_str_loop bc (bytes.take (min bc.toNat 9 - cnt)) value (cnt : Int) i
  | [], value, cnt, i => by simp
  | c :: bs, value, cnt, i => by
    by_cases hg : min bc.toNat 9 ≤ cnt
    · have h0 : min bc.toNat 9 - cnt = 0 := by omega
      rw [h0, List.take_zero, bytes_to_str_loop, bytes_to_str_loop]
      by_cases h1 : (cnt : Int) ≥ bc
      · rw [if_pos h1, if_pos h1]
      · have h2 : (cnt : Int) ≥ 64 / 7 := by norm_num; omega
        rw [if_neg h1, if_neg h1, if_pos h2, if_pos h2]
    · obtain ⟨k, hk⟩ : ∃ k, min bc.toNat 9 - cnt = k + 1 := ⟨min bc.toNat 9 - cnt - 1, by omega⟩
      have hk2 : min bc.toNat 9 - (cnt + 1) = k := by omega
      have e1 : ((cnt : Int) + 1) = ((cnt + 1 : Nat) : Int) := by simp
      rw [hk, List.take_succ_cons, bytes_to_str_loop, bytes_to_str_loop]
      have ih := loop_take bc bs ((value + ((c &&& 127) <<< i) % 2 ^ 64) % 2 ^ 64) (cnt + 1) (i + 7)
      rw [hk2] at ih
      simp only [e1, ih]

/-- A buffer that holds the octets below the index `min byte_count 9` is never left. -/
theorem loop_in_buffer (bc : Int) : ∀ (bytes : List Nat) (value cnt i : Nat),
    min bc.toNat 9 - cnt ≤ bytes.length →
    ∃ r, bytes_to_str_loop bc bytes value (cnt : Int) i = some r
  | [], value, cnt, i, h => by
    simp only [List.length_nil, Nat.le_zero] at h
    rw [bytes_to_str_loop]
    by_cases h1 : (cnt : Int) ≥ bc
    · exact ⟨_, if_pos h1⟩
    · have h2 : (cnt : Int) ≥ 64 / 7 := by norm_num; omega
      rw [if_neg h1, if_pos h2]
      exact ⟨_, rfl⟩
  | c :: bs, value, cnt, i, h => by
    rw [bytes_to_str_loop]
    split_ifs with h1 h2 h3
    · exact ⟨_, rfl⟩
    · exact ⟨_, rfl⟩
    · exact ⟨_, rfl⟩
    · have e1 : ((cnt : Int) + 1) = ((cnt + 1 : Nat) : Int) := by simp
      simp only [e1]
      apply loop_in_buffer bc bs _ (cnt + 1) (i + 7)
      simp only [List.length_cons] at h
      omega

/-- The count the loop leaves with is at most `min (max byte_count 0) 9` once it started
below that. -/
theorem loop_count_le (bc : Int) : ∀ (bytes : List Nat) (value cnt i : Nat)
    (r : bytes_to_str_error_code × Nat × Int),
    bytes_to_str_loop bc bytes value (cnt : Int) i = some r →
    (cnt : Int) ≤ r.2.2 ∧ r.2.2 ≤ max (cnt : Int) (min (max bc 0) 9)
  | [], value, cnt, i, r, h => by
    rw [bytes_to_str_loop] at h
    split_ifs at h <;> simp only [Option.some.injEq] at h <;> subst h <;> simp
  | c :: bs, value, cnt, i, r, h => by
    rw [bytes_to_str_loop] at h
    split_ifs at h with h1 h2 h3
    · simp only [Option.some.injEq] at h; subst h; simp
    · simp only [Option.some.injEq] at h; subst h; simp
    · simp only [Option.some.injEq] at h; subst h
      norm_num at h2
      simp only
      omega
    · norm_num at h2
      have e1 : ((cnt : Int) + 1) = ((cnt + 1 : Nat) : Int) := by simp
      rw [e1] at h
      have := loop_count_le bc bs _ (cnt + 1) (i + 7) r h
      push_cast at this
      omega

end unsigned_leb128

/-! ## The parsers on arbitrary texts -/

theorem wcstoul_endptr (U : Nat) (str : List Char) (base : Nat) :
    (wcstoul U str base).endptr
      = if (subject_scan base str).2.1 = 0 then 0
        else str.length - (subject_scan base str).2.2.length := by
  unfold wcstoul subject_scan
  simp only []
  split_ifs <;> rfl

theorem wcstoll_endptr (str : List Char) (base : Nat) :
    (wcstoll str base).endptr
      = if (subject_scan base str).2.1 = 0 then 0
        else str.length - (subject_scan base str).2.2.length := by
  unfold wcstoll subject_scan
  simp only []
  split_ifs <;> rfl

/-- When `wcstoul` sets `ERANGE` it returns `ULONG_MAX`. -/
theorem wcstoul_erange (U : Nat) (str : List Char) (base : Nat)
    (h : (wcstoul U str base).erange = true) : (wcstoul U str base).value = U := by
  unfold wcstoul at h ⊢
  simp only [] at h ⊢
  split_ifs at h ⊢
  all_goals simp_all

theorem scan_digits_split (base : Nat) : ∀ (s : List Char) (acc n : Nat),
    ∃ ds : List Char, s = ds ++ (scan_digits base s acc n).2.2
      ∧ (∀ c ∈ ds, is_digit base c = true)
      ∧ (scan_digits base s acc n).2.1 = n + ds.length
  | [], acc, n => ⟨[], by simp [scan_digits]⟩
  | c :: cs, acc, n => by
    rw [scan_digits]
    cases hv : digit_value c with
    | none => exact ⟨[], by simp⟩
    | some d =>
      by_cases hd : d < base
      · obtain ⟨ds, e, hds, hn⟩ := scan_digits_split base cs (acc * base + d) (n + 1)
        simp only [hd, if_true]
        refine ⟨c :: ds, ?_, ?_, ?_⟩
        · rw [List.cons_append, ← e]
        · intro x hx
          rcases List.mem_cons.mp hx with rfl | hx
          · simp [is_digit, hv, hd]
          · exact hds x hx
        · rw [hn, List.length_cons]; omega
      · simp only [hd, if_false]
        exact ⟨[], by simp⟩

theorem take_sign_split (s : List Char) :
    ∃ pre : List Char, s = pre ++ (take_sign s).2
      ∧ ∀ c ∈ pre, c.toNat = 43 ∨ c.toNat = 45 := by
  rcases s with _ | ⟨c, cs⟩
  · exact ⟨[], by simp [take_sign]⟩
  · rw [take_sign]
    split_ifs with h1 h2
    · exact ⟨[c], by simp, by simp [h1]⟩
    · exact ⟨[c], by simp, by simp [h2]⟩
    · exact ⟨[], by simp⟩

theorem take_0x_split (base : Nat) (s : List Char) :
    ∃ pre : List Char, s = pre ++ take_0x base s
      ∧ ∀ c ∈ pre, is_digit base c = true ∨ (base = 16 ∧ (c.toNat = 120 ∨ c.toNat = 88)) := by
  rcases s with _ | ⟨c0, _ | ⟨c1, _ | ⟨c2, cs⟩⟩⟩
  · exact ⟨[], by simp [take_0x]⟩
  · exact ⟨[], by simp [take_0x]⟩
  · exact ⟨[], by simp [take_0x]⟩
  · rw [take_0x]
    split_ifs with h
    · refine ⟨[c0, c1], by simp, ?_⟩
      intro c hc
      simp only [List.mem_cons, List.mem_singleton, List.not_mem_nil, or_false] at hc
      rcases hc with rfl | rfl
      · left
        have h48 := h.2.1
        simp [is_digit, digit_value, h48, h.1]
      · exact Or.inr ⟨h.1, h.2.2.1⟩
    · exact ⟨[], by simp⟩

/-- A text that does not start with white space splits into what the scan takes, made
of signs, digits of the base and for base 16 `x` or `X`, and the text the scan leaves. -/
theorem subject_scan_split (base : Nat) (s : List Char)
    (hw : iswspace (deref s 0) = false) :
    ∃ pre : List Char, s = pre ++ (subject_scan base s).2.2
      ∧ (∀ c ∈ pre, is_digit base c = true ∨ c.toNat = 43 ∨ c.toNat = 45
          ∨ (base = 16 ∧ (c.toNat = 120 ∨ c.toNat = 88))) := by
  have hdw : s.dropWhile iswspace = s := by
    rcases s with _ | ⟨c, cs⟩
    · rfl
    · have : iswspace c = false := by simpa [deref] using hw
      rw [List.dropWhile_cons_of_neg (by simp [this])]
  obtain ⟨p1, e1, h1⟩ := take_sign_split s
  obtain ⟨p2, e2, h2⟩ := take_0x_split base (take_sign s).2
  obtain ⟨p3, e3, h3, -⟩ := scan_digits_split base (take_0x base (take_sign s).2) 0 0
  refine ⟨p1 ++ p2 ++ p3, ?_, ?_⟩
  · unfold subject_scan
    rw [hdw, List.append_assoc, List.append_assoc, ← e3, ← e2, ← e1]
  · intro c hc
    rcases List.mem_append.mp hc with hc | hc
    · rcases List.mem_append.mp hc with hc | hc
      · rcases h1 c hc with h | h
        · exact Or.inr (Or.inl h)
        · exact Or.inr (Or.inr (Or.inl h))
      · rcases h2 c hc with h | h
        · exact Or.inl h
        · exact Or.inr (Or.inr (Or.inr h))
    · exact Or.inl (h3 c hc)

theorem deref_mem (s : List Char) (p : Nat) (h : p < s.length) : deref s p ∈ s := by
  unfold deref
  rw [List.getD_eq_getElem _ _ h]
  exact List.getElem_mem h

/-- The two conditions of the parsers that give `INVALID_STRING`, in terms of the scan,
for a text without a NUL inside: white space in front, no digit taken, or text left. -/
theorem scan_rejects (base : Nat) (s : List Char) (hnul : Char.ofNat 0 ∉ s)
    (endptr : Nat)
    (he : endptr = if (subject_scan base s).2.1 = 0 then 0
        else s.length - (subject_scan base s).2.2.length)
    (hbad : s = [] ∨ iswspace (deref s 0) = true
      ∨ (∃ c ∈ s, ¬ (is_digit base c = true ∨ c.toNat = 43 ∨ c.toNat = 45
          ∨ (base = 16 ∧ (c.toNat = 120 ∨ c.toNat = 88))))
      ∨ endptr < s.length) :
    iswspace (deref s 0) = true ∨ endptr = 0 ∨ deref s endptr ≠ Char.ofNat 0 := by
  by_cases hw : iswspace (deref s 0) = true
  · exact Or.inl hw
  · right
    have hw2 : iswspace (deref s 0) = false := by simpa using hw
    obtain ⟨pre, e, hpre⟩ := subject_scan_split base s hw2
    by_cases h0 : endptr = 0
    · exact Or.inl h0
    · right
      have hlt : endptr < s.length := by
        have hlen : s.length = pre.length + (subject_scan base s).2.2.length := by
          conv_lhs => rw [e]
          rw [List.length_append]
        by_cases hn : (subject_scan base s).2.1 = 0
        · rw [if_pos hn] at he; exact absurd he h0
        · rw [if_neg hn] at he
          rcases hbad with h | h | h | h
          · subst h; simp at he; exact absurd he h0
          · exact absurd h hw
          · obtain ⟨c, hc, hcbad⟩ := h
            by_contra hge
            have hr : (subject_scan base s).2.2 = [] := by
              apply List.eq_nil_of_length_eq_zero
              omega
            rw [hr, List.append_nil] at e
            rw [e] at hc
            exact hcbad (hpre c hc)
          · exact h
      intro hd
      exact hnul (hd ▸ deref_mem s endptr hlt)

theorem str2uint_invalid_iff (U : Nat) (s : List Char) (res base : Nat) :
    (str2uint U (some s) res base).1 = .INVALID_STRING
      ↔ (iswspace (deref s 0) = true ∨ (wcstoul U s base).endptr = 0
          ∨ deref s (wcstoul U s base).endptr ≠ Char.ofNat 0) := by
  unfold str2uint
  simp only []
  split_ifs <;> simp_all

theorem str2int_invalid_iff (s : List Char) (res : Int) (base : Nat) :
    (str2int (some s) res base).1 = .INVALID_STRING
      ↔ (iswspace (deref s 0) = true ∨ (wcstoll s base).endptr = 0
          ∨ deref s (wcstoll s base).endptr ≠ Char.ofNat 0) := by
  unfold str2int
  simp only []
  split_ifs <;> simp_all

/-- The `UNDERFLOW` branch of `str2uint` is never taken: with `ERANGE` set, `wcstoul`
has returned `ULONG_MAX`, which is not zero. -/
theorem str2uint_never_underflow (U : Nat) (hU : 0 < U) (str : Option (List Char))
    (res base : Nat) : (str2uint U str res base).1 ≠ .UNDERFLOW := by
  rcases str with _ | s
  · simp [str2uint]
  · unfold str2uint
    simp only []
    split_ifs with h1 h2 h3 h4 h5 <;> simp
    have := wcstoul_erange U s base h3
    omega

theorem wcstoll_of_digits (s : List Char) (base : Nat)
    (hn : (subject_scan base s).2.1 ≠ 0) :
    wcstoll s base
      = if (take_sign (s.dropWhile iswspace)).1 = true then
          (if -((subject_scan base s).1 : Int) < LLONG_MIN then
            ⟨LLONG_MIN, s.length - (subject_scan base s).2.2.length, true⟩
          else ⟨-((subject_scan base s).1 : Int),
            s.length - (subject_scan base s).2.2.length, false⟩)
        else
          (if LLONG_MAX < ((subject_scan base s).1 : Int) then
            ⟨LLONG_MAX, s.length - (subject_scan base s).2.2.length, true⟩
          else ⟨((subject_scan base s).1 : Int),
            s.length - (subject_scan base s).2.2.length, false⟩) := by
  unfold subject_scan at hn ⊢
  unfold wcstoll
  simp only [hn, if_false]

theorem wcstoul_of_digits (U : Nat) (s : List Char) (base : Nat)
    (hn : (subject_scan base s).2.1 ≠ 0) :
    wcstoul U s base
      = if U < (subject_scan base s).1 then
          ⟨U, s.length - (subject_scan base s).2.2.length, true⟩
        else
          ⟨if (take_sign (s.dropWhile iswspace)).1 = true then
              (U + 1 - (subject_scan base s).1) % (U + 1)
            else (subject_scan base s).1,
            s.length - (subject_scan base s).2.2.length, false⟩ := by
  unfold subject_scan at hn ⊢
  unfold wcstoul
  simp only [hn, if_false]

/-- What `str2int` returns for a text it does not reject as malformed, from what
`wcstoll` returned. -/
theorem str2int_of_ok (s : List Char) (res : Int) (base : Nat)
    (hok : (str2int (some s) res base).1 ≠ .INVALID_STRING) :
    (subject_scan base s).2.1 ≠ 0
      ∧ str2int (some s) res base
        = if (wcstoll s base).erange = true then
            (if (wcstoll s base).value = LLONG_MIN then (.UNDERFLOW, (wcstoll s base).value)
              else if (wcstoll s base).value = LLONG_MAX then
                (.OVERFLOW, (wcstoll s base).value)
              else (.NONE, (wcstoll s base).value))
          else (.NONE, (wcstoll s base).value) := by
  have h := mt (str2int_invalid_iff s res base).mpr hok
  simp only [not_or, Bool.not_eq_true, ne_eq, not_not] at h
  obtain ⟨hw, h0, hd⟩ := h
  constructor
  · intro hn
    rw [wcstoll_endptr, if_pos hn] at h0
    exact h0 rfl
  · unfold str2int
    simp only [hw, Bool.false_eq_true, if_false, h0, hd, ne_eq, not_true_eq_false, or_self]

/-- What `str2uint` returns for a text it does not reject as malformed, from what
`wcstoul` returned. -/
theorem str2uint_of_ok (U : Nat) (s : List Char) (res base : Nat)
    (hok : (str2uint U (some s) res base).1 ≠ .INVALID_STRING) :
    (subject_scan base s).2.1 ≠ 0
      ∧ str2uint U (some s) res base
        = if (wcstoul U s base).erange = true then
            (if (wcstoul U s base).value = 0 then (.UNDERFLOW, (wcstoul U s base).value)
              else if (wcstoul U s base).value = ULLONG_MAX then
                (.OVERFLOW, (wcstoul U s base).value)
              else (.NONE, (wcstoul U s base).value))
          else (.NONE, (wcstoul U s base).value) := by
  have h := mt (str2uint_invalid_iff U s res base).mpr hok
  simp only [not_or, Bool.not_eq_true, ne_eq, not_not] at h
  obtain ⟨hw, h0, hd⟩ := h
  constructor
  · intro hn
    rw [wcstoul_endptr, if_pos hn] at h0
    exact h0 rfl
  · unfold str2uint
    simp only [hw, Bool.false_eq_true, if_false, h0, hd, ne_eq, not_true_eq_false, or_self]

/-- How `str2int` classifies a text it does not reject as malformed: by the sign and the
magnitude the scan has read. -/
theorem str2int_classify (s : List Char) (res : Int) (base : Nat)
    (hok : (str2int (some s) res base).1 ≠ .INVALID_STRING) :
    str2int (some s) res base
      = if (take_sign (s.dropWhile iswspace)).1 = true then
          (if -((subject_scan base s).1 : Int) < LLONG_MIN then (.UNDERFLOW, LLONG_MIN)
            else (.NONE, -((subject_scan base s).1 : Int)))
        else
          (if LLONG_MAX < ((subject_scan base s).1 : Int) then (.OVERFLOW, LLONG_MAX)
            else (.NONE, ((subject_scan base s).1 : Int))) := by
  have hmm : LLONG_MAX ≠ LLONG_MIN := by decide
  obtain ⟨hn, e⟩ := str2int_of_ok s res base hok
  rw [e, wcstoll_of_digits s base hn]
  by_cases hs : (take_sign (s.dropWhile iswspace)).1 = true
  · by_cases hlt : -((subject_scan base s).1 : Int) < LLONG_MIN
    · simp only [hs, hlt, if_true]
    · simp only [hs, hlt, if_true, if_false, Bool.false_eq_true]
  · have hs2 : (take_sign (s.dropWhile iswspace)).1 = false := by simpa using hs
    by_cases hlt : LLONG_MAX < ((subject_scan base s).1 : Int)
    · simp only [hs2, hlt, if_true, if_false, hmm, Bool.false_eq_true]
    · simp only [hs2, hlt, if_false, Bool.false_eq_true]

/-- How `str2uint` classifies a text it does not reject as malformed: a magnitude above
`ULONG_MAX` gives `OVERFLOW` only where `ULONG_MAX` is `ULLONG_MAX`, and `NONE` with the
saturated value elsewhere; a sign `-` negates in the unsigned type with `NONE`. -/
theorem str2uint_classify (U : Nat) (hU : 0 < U) (s : List Char) (res base : Nat)
    (hok : (str2uint U (some s) res base).1 ≠ .INVALID_STRING) :
    str2uint U (some s) res base
      = if U < (subject_scan base s).1 then
          ((if U = ULLONG_MAX then .OVERFLOW else .NONE), U)
        else
          (.NONE, if (take_sign (s.dropWhile iswspace)).1 = true then
              (U + 1 - (subject_scan base s).1) % (U + 1)
            else (subject_scan base s).1) := by
  have hU0 : U ≠ 0 := by omega
  obtain ⟨hn, e⟩ := str2uint_of_ok U s res base hok
  rw [e, wcstoul_of_digits U s base hn]
  by_cases hlt : U < (subject_scan base s).1
  · by_cases hmax : U = ULLONG_MAX
    · subst hmax
      simp only [hlt, if_true, hU0, if_false]
    · simp only [hlt, if_true, hU0, if_false, hmax]
  · simp only [hlt, if_false, Bool.false_eq_true]

/-! ## Decoding: the claims -/

/-- C3. Unsigned decode postcondition: when octets `0 .. k-1` of a buffer of length `n`
carry the continuation bit and octet `k < min n 9` does not, the loop of
`unsigned_leb128::bytes_to_str` leaves with `NONE`, `k + 1` octets consumed and the exact
sum of `(byte_i & 0x7F) * 2 ^ (7 * i)` for `i = 0 .. k` (nothing is lost modulo `2 ^ 64`);
the function returns the text of that value; and a buffer with the same first `k + 1`
octets gives the same result. -/
theorem unsigned_decode_postcondition (thisptr : unsigned_leb128) (bytes : List Nat) (k : Nat)
    (int_display_opt : integer_display_option) (hk : k < min bytes.length 9)
    (hcont : ∀ i, i < k → bytes.getD i 0 &&& 128 ≠ 0)
    (hlast : bytes.getD k 0 &&& 128 = 0) :
    unsigned_leb128.bytes_to_str_loop bytes.length bytes 0 0 0
        = some (.NONE, (∑ i in Finset.range (k + 1), (bytes.getD i 0 &&& 127) * 2 ^ (7 * i)),
            (k : Int) + 1)
      ∧ unsigned_leb128.bytes_to_str thisptr bytes bytes.length int_display_opt
        = some ⟨.NONE, (k : Int) + 1,
            some (stream_u64 int_display_opt
              (∑ i in Finset.range (k + 1), (bytes.getD i 0 &&& 127) * 2 ^ (7 * i))),
            { thisptr with bytes_to_string_result := (stream_u64 int_display_opt
                (∑ i in Finset.range (k + 1), (bytes.getD i 0 &&& 127) * 2 ^ (7 * i))) }⟩
      ∧ (∑ i in Finset.range (k + 1), (bytes.getD i 0 &&& 127) * 2 ^ (7 * i)) < 2 ^ 63
      ∧ ∀ bytes2 : List Nat, bytes2.take (k + 1) = bytes.take (k + 1) →
          unsigned_leb128.bytes_to_str thisptr bytes2 bytes2.length int_display_opt
            = unsigned_leb128.bytes_to_str thisptr bytes bytes.length int_display_opt := by
  have hk1 : k < bytes.length := lt_of_lt_of_le hk (min_le_left _ _)
  have hk9 : k < 9 := lt_of_lt_of_le hk (min_le_right _ _)
  have hloop := unsigned_leb128.loop_stop bytes.length bytes k hk1 hk9 (by omega) hcont hlast
  rw [payload_take_sum] at hloop
  have hres : ∀ b : List Nat, unsigned_leb128.bytes_to_str_loop b.length b 0 0 0
      = some (.NONE, (∑ i in Finset.range (k + 1), (bytes.getD i 0 &&& 127) * 2 ^ (7 * i)),
            (k : Int) + 1) →
      unsigned_leb128.bytes_to_str thisptr b b.length int_display_opt
        = some ⟨.NONE, (k : Int) + 1,
            some (stream_u64 int_display_opt
              (∑ i in Finset.range (k + 1), (bytes.getD i 0 &&& 127) * 2 ^ (7 * i))),
            { thisptr with bytes_to_string_result := (stream_u64 int_display_opt
                (∑ i in Finset.range (k + 1), (bytes.getD i 0 &&& 127) * 2 ^ (7 * i))) }⟩ := by
    intro b hb
    rw [unsigned_leb128.bytes_to_str, hb]
  refine ⟨hloop, hres bytes hloop, ?_, ?_⟩
  · rw [← payload_take_sum]
    have h1 := payload_lt (bytes.take (k + 1))
    have h2 : 2 ^ (7 * (bytes.take (k + 1)).length) ≤ 2 ^ 63 :=
      Nat.pow_le_pow_right (by norm_num) (by rw [List.length_take]; omega)
    omega
  · intro bytes2 h2
    have hlen : k < bytes2.length := by
      have := congrArg List.length h2
      simp only [List.length_take] at this
      omega
    have hget : ∀ i, i < k + 1 → bytes2.getD i 0 = bytes.getD i 0 := by
      intro i hi
      rw [← getD_take_lt bytes2 (k + 1) i hi, h2, getD_take_lt bytes (k + 1) i hi]
    have hloop2 := unsigned_leb128.loop_stop bytes2.length bytes2 k hlen hk9 (by omega)
      (fun i hi => by rw [hget i (by omega)]; exact hcont i hi)
      (by rw [hget k (by omega)]; exact hlast)
    rw [h2, payload_take_sum] at hloop2
    rw [hres bytes2 hloop2, hres bytes hloop]

/-- C3, instances: `[0x00]` decodes to 0, `[0xFF, 0x01]` to 255 and `[0x80, 0x80, 0x01]`
to 16384. -/
theorem unsigned_decode_postcondition_witness :
    unsigned_leb128.bytes_to_str unsigned_leb128.init_instance [0x00] 1 .DECIMAL
        = some ⟨.NONE, 1, some "0".toList,
            { unsigned_leb128.init_instance with bytes_to_string_result := "0".toList }⟩
      ∧ unsigned_leb128.bytes_to_str unsigned_leb128.init_instance [0xFF, 0x01] 2 .DECIMAL
        = some ⟨.NONE, 2, some "255".toList,
            { unsigned_leb128.init_instance with bytes_to_string_result := "255".toList }⟩
      ∧ unsigned_leb128.bytes_to_str unsigned_leb128.init_instance [0x80, 0x80, 0x01] 3 .DECIMAL
        = some ⟨.NONE, 3, some "16384".toList,
            { unsigned_leb128.init_instance with bytes_to_string_result := "16384".toList }⟩ :=
  ⟨(unsigned_decode_postcondition unsigned_leb128.init_instance [0x00] 0 .DECIMAL
      (by decide) (by decide) (by decide)).2.1.trans (by decide),
   (unsigned_decode_postcondition unsigned_leb128.init_instance [0xFF, 0x01] 1 .DECIMAL
      (by decide) (by decide) (by decide)).2.1.trans (by decide),
   (unsigned_decode_postcondition unsigned_leb128.init_instance [0x80, 0x80, 0x01] 2 .DECIMAL
      (by decide) (by decide) (by decide)).2.1.trans (by decide)⟩

/-- C5, as stated, fails: nine octets `0x80` with `byte_count = 9` make both codecs return
`BYTES_TOO_SHORT`, not `INVALID_BYTES`. -/
theorem nine_continuation_bytes_counterexample :
    (unsigned_leb128.bytes_to_str unsigned_leb128.init_instance
        [0x80, 0x80, 0x80, 0x80, 0x80, 0x80, 0x80, 0x80, 0x80] 9 .DECIMAL).map
        (fun r => r.error) = some .BYTES_TOO_SHORT
      ∧ (signed_leb128.bytes_to_str signed_leb128.init_instance
        [0x80, 0x80, 0x80, 0x80, 0x80, 0x80, 0x80, 0x80, 0x80] 9 .DECIMAL).map
        (fun r => r.error) = some .BYTES_TOO_SHORT
      ∧ (unsigned_leb128.bytes_to_str unsigned_leb128.init_instance
        [0x80, 0x80, 0x80, 0x80, 0x80, 0x80, 0x80, 0x80, 0x80] 9 .DECIMAL).map
        (fun r => r.error) ≠ some .INVALID_BYTES
      ∧ (signed_leb128.bytes_to_str signed_leb128.init_instance
        [0x80, 0x80, 0x80, 0x80, 0x80, 0x80, 0x80, 0x80, 0x80] 9 .DECIMAL).map
        (fun r => r.error) ≠ some .INVALID_BYTES := by
  decide

/-- C5, amended: for every buffer of exactly nine octets that all carry the continuation
bit, `bytes_to_str` of either codec fails with `BYTES_TOO_SHORT`, with nine octets counted
and no text written: the guard on `byte_count` is tested before the guard on nine. -/
theorem nine_continuation_bytes_too_short (uthis : unsigned_leb128) (sthis : signed_leb128)
    (bytes : List Nat) (int_display_opt : integer_display_option)
    (hlen : bytes.length = 9) (hcont : ∀ c ∈ bytes, c &&& 128 ≠ 0) :
    unsigned_leb128.bytes_to_str uthis bytes 9 int_display_opt
        = some ⟨.BYTES_TOO_SHORT, 9, none, uthis⟩
      ∧ signed_leb128.bytes_to_str sthis bytes 9 int_display_opt
        = some ⟨.BYTES_TOO_SHORT, 9, none, sthis⟩ := by
  have h := unsigned_leb128.loop_exhaust bytes (by omega) hcont
  rw [hlen] at h
  have h9 : ((9 : Nat) : Int) = 9 := rfl
  rw [h9] at h
  constructor
  · rw [unsigned_leb128.bytes_to_str, h]
  · rw [signed_leb128.bytes_to_str, signed_leb128.loop_zero_eq_unsigned, h]
    rfl

/-- C5, amended, at a buffer of nine octets alternating `0x80` and `0xFF`. -/
theorem nine_continuation_bytes_too_short_witness :
    unsigned_leb128.bytes_to_str unsigned_leb128.init_instance
        [0x80, 0xFF, 0x80, 0xFF, 0x80, 0xFF, 0x80, 0xFF, 0x80] 9 .HEX_UPPER_CASE
        = some ⟨.BYTES_TOO_SHORT, 9, none, unsigned_leb128.init_instance⟩
      ∧ signed_leb128.bytes_to_str signed_leb128.init_instance
        [0x80, 0xFF, 0x80, 0xFF, 0x80, 0xFF, 0x80, 0xFF, 0x80] 9 .HEX_UPPER_CASE
        = some ⟨.BYTES_TOO_SHORT, 9, none, signed_leb128.init_instance⟩ :=
  nine_continuation_bytes_too_short unsigned_leb128.init_instance signed_leb128.init_instance
    [0x80, 0xFF, 0x80, 0xFF, 0x80, 0xFF, 0x80, 0xFF, 0x80] .HEX_UPPER_CASE (by decide)
    (by decide)

/-- C6. Overlong sequence rejected: when `byte_count >= 10` and the first nine octets of
the buffer all carry the continuation bit, `bytes_to_str` of either codec fails with
`INVALID_BYTES` (nine octets counted, no text written), whatever the tenth and later
octets are; and no successful decode of either codec consumes more than nine octets. -/
theorem overlong_sequence_rejected (uthis : unsigned_leb128) (sthis : signed_leb128)
    (bytes : List Nat) (byte_count : Int) (int_display_opt : integer_display_option)
    (hbc : 10 ≤ byte_count) (hlen : 9 ≤ bytes.length)
    (hcont : ∀ i, i < 9 → bytes.getD i 0 &&& 128 ≠ 0) :
    unsigned_leb128.bytes_to_str uthis bytes byte_count int_display_opt
        = some ⟨.INVALID_BYTES, 9, none, uthis⟩
      ∧ signed_leb128.bytes_to_str sthis bytes byte_count int_display_opt
        = some ⟨.INVALID_BYTES, 9, none, sthis⟩
      ∧ (∀ (b : List Nat) (n : Int) (r : bytes_to_str_out unsigned_leb128),
          unsigned_leb128.bytes_to_str uthis b n int_display_opt = some r →
          r.error = .NONE → r.converted_byte_count ≤ 9)
      ∧ (∀ (b : List Nat) (n : Int) (r : bytes_to_str_out signed_leb128),
          signed_leb128.bytes_to_str sthis b n int_display_opt = some r →
          r.error = .NONE → r.converted_byte_count ≤ 9) := by
  have h := unsigned_leb128.loop_overlong byte_count bytes hbc hlen hcont
  refine ⟨?_, ?_, ?_, ?_⟩
  · rw [unsigned_leb128.bytes_to_str, h]
  · rw [signed_leb128.bytes_to_str, signed_leb128.loop_zero_eq_unsigned, h]
    rfl
  · intro b n r hr _
    rw [unsigned_leb128.bytes_to_str] at hr
    cases hl : unsigned_leb128.bytes_to_str_loop n b 0 0 0 with
    | none => rw [hl] at hr; simp at hr
    | some x =>
      have hc := (unsigned_leb128.loop_count n b 0 0 0 x (by norm_num) hl).2
      obtain ⟨e, v, c⟩ := x
      rw [hl] at hr
      cases e <;> simp at hr <;> subst hr <;> exact hc
  · intro b n r hr _
    rw [signed_leb128.bytes_to_str, signed_leb128.loop_zero_eq_unsigned] at hr
    cases hl : unsigned_leb128.bytes_to_str_loop n b 0 0 0 with
    | none => rw [hl] at hr; simp at hr
    | some x =>
      have hc := (unsigned_leb128.loop_count n b 0 0 0 x (by norm_num) hl).2
      obtain ⟨e, v, c⟩ := x
      rw [hl] at hr
      cases e <;> simp at hr <;> subst hr <;> exact hc

/-- C6 at nine octets `0x80` followed by `0x01`, with `byte_count = 10`. -/
theorem overlong_sequence_rejected_witness :
    unsigned_leb128.bytes_to_str unsigned_leb128.init_instance
        [0x80, 0x80, 0x80, 0x80, 0x80, 0x80, 0x80, 0x80, 0x80, 0x01] 10 .DECIMAL
        = some ⟨.INVALID_BYTES, 9, none, unsigned_leb128.init_instance⟩
      ∧ signed_leb128.bytes_to_str signed_leb128.init_instance
        [0x80, 0x80, 0x80, 0x80, 0x80, 0x80, 0x80, 0x80, 0x80, 0x01] 10 .DECIMAL
        = some ⟨.INVALID_BYTES, 9, none, signed_leb128.init_instance⟩ :=
  have h := overlong_sequence_rejected unsigned_leb128.init_instance
    signed_leb128.init_instance [0x80, 0x80, 0x80, 0x80, 0x80, 0x80, 0x80, 0x80, 0x80, 0x01] 10
    .DECIMAL (by decide) (by decide) (by decide)
  ⟨h.1, h.2.1⟩

/-! ## Encoding: the claims -/

theorem u64_lt_pow : ∀ v : Nat, v < 2 ^ 64 → v < 128 ^ 10 := fun v h =>
  lt_trans h (by norm_num)

/-- C4. Encode byte layout: for every unsigned 64-bit `v` the emitting loop of
`unsigned_leb128::str_to_bytes` returns a non-empty sequence of at most ten octets; octet
`i` carries bits `7i .. 7i+6` of `v` in its low seven bits; every octet but the last has
bit `0x80` set and the last has it clear; the octets cover all of `v` (no bit of `v` lies
beyond the last group, and the groups add up to `v`) and stop at the last group that is
not zero; and the value 0 gives the single octet `0x00`. -/
theorem encode_byte_layout (v : Nat) (hv : v < 2 ^ 64) :
    ∃ out : List Nat, emit_loop 10 v [] = some out
      ∧ out ≠ []
      ∧ (∀ c ∈ out, c < 256)
      ∧ (∀ i, i < out.length → out.getD i 0 &&& 127 = (v >>> (7 * i)) &&& 127)
      ∧ (∀ i, i + 1 < out.length → out.getD i 0 &&& 128 = 128)
      ∧ out.getD (out.length - 1) 0 &&& 128 = 0
      ∧ emit_loop 10 0 [] = some [0x00]
      ∧ out.length ≤ 10
      ∧ v >>> (7 * out.length) = 0
      ∧ (out.length = 1 ∨ v >>> (7 * (out.length - 1)) ≠ 0)
      ∧ (∑ i in Finset.range out.length, (out.getD i 0 &&& 127) * 2 ^ (7 * i)) = v := by
  have hv10 := u64_lt_pow v hv
  have he := emit_loop_eq 10 v [] (by norm_num) hv10
  have hlen := leb_groups_length 10 10 v (by norm_num) hv10
  obtain ⟨pre, l, e, hpre, hl, hz, hp⟩ := leb_groups_shape 10 v (by norm_num) hv10
  have hlast : (leb_groups 10 v).getD ((leb_groups 10 v).length - 1) 0 = l := by
    rw [e]
    simp only [List.length_append, List.length_singleton, Nat.add_sub_cancel]
    rw [List.getD_append_right _ _ _ _ (le_refl _)]
    simp only [Nat.sub_self, List.getD_cons_zero]
  have hpay : payload (leb_groups 10 v) = v := by rw [e]; exact hp
  refine ⟨leb_groups 10 v, by simpa using he, ?_, ?_, ?_, ?_, ?_, by decide, hlen, ?_, ?_, ?_⟩
  · rw [e]; simp
  · intro c hc
    rw [e] at hc
    rcases List.mem_append.mp hc with h | h
    · exact (hpre c h).2
    · simp at h; omega
  · intro i hi
    exact leb_groups_bits 10 v i hi
  · intro i hi
    rw [e] at hi ⊢
    simp only [List.length_append, List.length_singleton] at hi
    have hi2 : i < pre.length := by omega
    rw [List.getD_append _ _ _ _ hi2, List.getD_eq_getElem _ _ hi2]
    exact (hpre _ (List.getElem_mem hi2)).1
  · rw [hlast]
    exact (low_bits l hl).2.2.2.2
  · have hlt := payload_lt (leb_groups 10 v)
    rw [hpay] at hlt
    rw [Nat.shiftRight_eq_div_pow]
    exact Nat.div_eq_of_lt hlt
  · by_cases hpre0 : pre = []
    · left
      rw [e, hpre0]
      rfl
    · right
      intro h0
      have hl0 : l ≠ 0 := fun h => hpre0 (hz h)
      have hpos : (leb_groups 10 v).length - 1 < (leb_groups 10 v).length := by
        rw [e]; simp
      have hb := leb_groups_bits 10 v ((leb_groups 10 v).length - 1) hpos
      rw [hlast, h0, (low_bits l hl).2.2.2.1] at hb
      exact hl0 (by simpa using hb)
  · rw [← payload_take_sum, List.take_length, hpay]

/-- C4 at `v = 300`: the octets `0xAC, 0x02`. -/
theorem encode_byte_layout_witness :
    (∃ out : List Nat, emit_loop 10 300 [] = some out
      ∧ out ≠ []
      ∧ (∀ c ∈ out, c < 256)
      ∧ (∀ i, i < out.length → out.getD i 0 &&& 127 = (300 >>> (7 * i)) &&& 127)
      ∧ (∀ i, i + 1 < out.length → out.getD i 0 &&& 128 = 128)
      ∧ out.getD (out.length - 1) 0 &&& 128 = 0
      ∧ emit_loop 10 0 [] = some [0x00]
      ∧ out.length ≤ 10
      ∧ 300 >>> (7 * out.length) = 0
      ∧ (out.length = 1 ∨ 300 >>> (7 * (out.length - 1)) ≠ 0)
      ∧ (∑ i in Finset.range out.length, (out.getD i 0 &&& 127) * 2 ^ (7 * i)) = 300)
      ∧ emit_loop 10 300 [] = some [0xAC, 0x02] :=
  ⟨encode_byte_layout 300 (by decide), by decide⟩

/-- C7. Truncated input: for every unsigned 64-bit `v` the emitting loop returns a
sequence `e`, and for every `m` below the length of `e` (zero included)
`unsigned_leb128::bytes_to_str` fails with `BYTES_TOO_SHORT`, both on the first `m` octets
of `e` as the whole buffer and on `e` with `byte_count = m`. -/
theorem truncated_input_too_short (thisptr : unsigned_leb128) (v : Nat)
    (int_display_opt : integer_display_option) (hv : v < 2 ^ 64) :
    ∃ e : List Nat, emit_loop 10 v [] = some e
      ∧ ∀ m, m < e.length →
          unsigned_leb128.bytes_to_str thisptr (e.take m) (m : Int) int_display_opt
              = some ⟨.BYTES_TOO_SHORT, (m : Int), none, thisptr⟩
            ∧ unsigned_leb128.bytes_to_str thisptr e (m : Int) int_display_opt
              = some ⟨.BYTES_TOO_SHORT, (m : Int), none, thisptr⟩ := by
  have hv10 := u64_lt_pow v hv
  have he := emit_loop_eq 10 v [] (by norm_num) hv10
  have hlen := leb_groups_length 10 10 v (by norm_num) hv10
  obtain ⟨pre, l, e, hpre, -, -, -⟩ := leb_groups_shape 10 v (by norm_num) hv10
  refine ⟨leb_groups 10 v, by simpa using he, ?_⟩
  intro m hm
  have hm2 : m ≤ pre.length := by
    rw [e] at hm; simp at hm; omega
  have htl : ((leb_groups 10 v).take m).length = m := by
    rw [List.length_take]; omega
  have hcont : ∀ c ∈ (leb_groups 10 v).take m, c &&& 128 ≠ 0 := by
    intro c hc
    rw [e, List.take_append_of_le_length hm2] at hc
    have := (hpre c (List.mem_of_mem_take hc)).1
    omega
  have h1 := unsigned_leb128.loop_exhaust_more ((leb_groups 10 v).take m) [] (by omega) hcont
  have h2 := unsigned_leb128.loop_exhaust_more ((leb_groups 10 v).take m)
    ((leb_groups 10 v).drop m) (by omega) hcont
  rw [List.append_nil, htl] at h1
  rw [List.take_append_drop, htl] at h2
  constructor
  · rw [unsigned_leb128.bytes_to_str, h1]
  · rw [unsigned_leb128.bytes_to_str, h2]

/-- C7 at `v = 16384` (octets `0x80, 0x80, 0x01`) and the prefix of two octets. -/
theorem truncated_input_too_short_witness :
    emit_loop 10 16384 [] = some [0x80, 0x80, 0x01]
      ∧ unsigned_leb128.bytes_to_str unsigned_leb128.init_instance [0x80, 0x80] 2 .DECIMAL
        = some ⟨.BYTES_TOO_SHORT, 2, none, unsigned_leb128.init_instance⟩ := by
  obtain ⟨e, he, h⟩ := truncated_input_too_short unsigned_leb128.init_instance 16384 .DECIMAL
    (by decide)
  have he2 : emit_loop 10 16384 [] = some [0x80, 0x80, 0x01] := by decide
  rw [he2] at he
  cases he
  exact ⟨he2, (h 2 (by decide)).1⟩

/-! ## Round trips: the claims -/

/-- C1, as stated, fails at `v = 2 ^ 63`, text `9223372036854775808` with the decimal
option.  Where `unsigned long` has 64 bits the encoder returns `NONE` with ten octets and
the decoder rejects them with `INVALID_BYTES`; where it has 32 bits `wcstoul` saturates,
the encoder returns `NONE` with the octets of 4294967295 and the decoder yields that
text. -/
theorem unsigned_round_trip_counterexample :
    stream_u64 .DECIMAL (2 ^ 63) = "9223372036854775808".toList
      ∧ unsigned_leb128.str_to_bytes 18446744073709551615 0 unsigned_leb128.init_instance
          "9223372036854775808".toList .DECIMAL
        = some ⟨.NONE, [0x80, 0x80, 0x80, 0x80, 0x80, 0x80, 0x80, 0x80, 0x80, 0x01], 10,
            { unsigned_leb128.init_instance with string_to_bytes_result :=
                [0x80, 0x80, 0x80, 0x80, 0x80, 0x80, 0x80, 0x80, 0x80, 0x01] }⟩
      ∧ unsigned_leb128.bytes_to_str unsigned_leb128.init_instance
          [0x80, 0x80, 0x80, 0x80, 0x80, 0x80, 0x80, 0x80, 0x80, 0x01] 10 .DECIMAL
        = some ⟨.INVALID_BYTES, 9, none, unsigned_leb128.init_instance⟩
      ∧ unsigned_leb128.str_to_bytes 4294967295 0 unsigned_leb128.init_instance
          "9223372036854775808".toList .DECIMAL
        = some ⟨.NONE, [0xFF, 0xFF, 0xFF, 0xFF, 0x0F], 5,
            { unsigned_leb128.init_instance with string_to_bytes_result :=
                [0xFF, 0xFF, 0xFF, 0xFF, 0x0F] }⟩
      ∧ unsigned_leb128.bytes_to_str unsigned_leb128.init_instance
          [0xFF, 0xFF, 0xFF, 0xFF, 0x0F] 5 .DECIMAL
        = some ⟨.NONE, 5, some "4294967295".toList,
            { unsigned_leb128.init_instance with
                bytes_to_string_result := "4294967295".toList }⟩ := by
  decide

/-- C1, amended: for every `v < 2 ^ 63` that the `unsigned long` of `wcstoul` can hold
(`v <= ULONG_MAX`) and each of the three display options, `unsigned_leb128::str_to_bytes`
on the text of `v` returns `NONE`, and `unsigned_leb128::bytes_to_str` on the emitted
octets under the same option returns `NONE`, consumes all of them and yields the text of
`v`. -/
theorem unsigned_round_trip (ULONG_MAX value0 : Nat) (uthis uthis2 : unsigned_leb128)
    (v : Nat) (int_display_opt : integer_display_option) (hv : v < 2 ^ 63)
    (hU : v ≤ ULONG_MAX) :
    ∃ e : str_to_bytes_out unsigned_leb128,
      unsigned_leb128.str_to_bytes ULONG_MAX value0 uthis (stream_u64 int_display_opt v)
          int_display_opt = some e
        ∧ e.error = .NONE
        ∧ unsigned_leb128.bytes_to_str uthis2 e.converted_bytes e.converted_byte_count
            int_display_opt
          = some ⟨.NONE, e.converted_byte_count, some (stream_u64 int_display_opt v),
              { uthis2 with bytes_to_string_result := (stream_u64 int_display_opt v) }⟩ := by
  have he := unsigned_leb128.str_to_bytes_text ULONG_MAX value0 uthis v int_display_opt
    (lt_trans hv (by norm_num)) hU
  refine ⟨_, he, rfl, ?_⟩
  have hd := (unsigned_leb128.loop_leb_groups v hv).1
  simp only [unsigned_leb128.bytes_to_str, hd]

/-- C1, amended, at `v = 255` with a 32-bit `unsigned long` and the upper-case
hexadecimal option: the text `FF`, the octets `0xFF, 0x01`. -/
theorem unsigned_round_trip_witness :
    ∃ e : str_to_bytes_out unsigned_leb128,
      unsigned_leb128.str_to_bytes 4294967295 0 unsigned_leb128.init_instance
          (stream_u64 .HEX_UPPER_CASE 255) .HEX_UPPER_CASE = some e
        ∧ e.error = .NONE
        ∧ unsigned_leb128.bytes_to_str unsigned_leb128.init_instance e.converted_bytes
            e.converted_byte_count .HEX_UPPER_CASE
          = some ⟨.NONE, e.converted_byte_count, some (stream_u64 .HEX_UPPER_CASE 255),
              { unsigned_leb128.init_instance with
                  bytes_to_string_result := (stream_u64 .HEX_UPPER_CASE 255) }⟩ :=
  unsigned_round_trip 4294967295 0 unsigned_leb128.init_instance unsigned_leb128.init_instance
    255 .HEX_UPPER_CASE (by decide) (by decide)

/-- C2, as stated, fails at `v = 2 ^ 62`, text `4611686018427387904` with the decimal
option: `signed_leb128::str_to_bytes` returns `NONE` with the ten octets of the zig-zag
form `2 ^ 63` (with a 32-bit and with a 64-bit `unsigned long` alike), and
`signed_leb128::bytes_to_str` rejects them with `INVALID_BYTES`. -/
theorem signed_round_trip_counterexample :
    stream_i64 .DECIMAL (2 ^ 62) = "4611686018427387904".toList
      ∧ signed_leb128.str_to_bytes 4294967295 0 signed_leb128.init_instance
          "4611686018427387904".toList .DECIMAL
        = some ⟨.NONE, [0x80, 0x80, 0x80, 0x80, 0x80, 0x80, 0x80, 0x80, 0x80, 0x01], 10,
            { signed_leb128.init_instance with string_to_bytes_result :=
                [0x80, 0x80, 0x80, 0x80, 0x80, 0x80, 0x80, 0x80, 0x80, 0x01] }⟩
      ∧ signed_leb128.str_to_bytes 18446744073709551615 0 signed_leb128.init_instance
          "4611686018427387904".toList .DECIMAL
        = some ⟨.NONE, [0x80, 0x80, 0x80, 0x80, 0x80, 0x80, 0x80, 0x80, 0x80, 0x01], 10,
            { signed_leb128.init_instance with string_to_bytes_result :=
                [0x80, 0x80, 0x80, 0x80, 0x80, 0x80, 0x80, 0x80, 0x80, 0x01] }⟩
      ∧ signed_leb128.bytes_to_str signed_leb128.init_instance
          [0x80, 0x80, 0x80, 0x80, 0x80, 0x80, 0x80, 0x80, 0x80, 0x01] 10 .DECIMAL
        = some ⟨.INVALID_BYTES, 9, none, signed_leb128.init_instance⟩ := by
  decide

/-- C2, amended: for every `v` with `-2 ^ 62 <= v < 2 ^ 62` and each display option (for
the sixteen hexadecimal digits of a negative `v`: when the `unsigned long` of `wcstoul`
can hold that bit pattern), `signed_leb128::str_to_bytes` on the text of `v` returns
`NONE`, and `signed_leb128::bytes_to_str` on the emitted octets under the same option
returns `NONE`, consumes all of them and yields the text of `v`. -/
theorem signed_round_trip (ULONG_MAX : Nat) (value0 : Int) (sthis sthis2 : signed_leb128)
    (v : Int) (int_display_opt : integer_display_option)
    (h1 : -4611686018427387904 ≤ v) (h2 : v < 4611686018427387904)
    (hopt : int_display_opt = .DECIMAL ∨ 0 ≤ v ∨ to_u64 v ≤ ULONG_MAX) :
    ∃ e : str_to_bytes_out signed_leb128,
      signed_leb128.str_to_bytes ULONG_MAX value0 sthis (stream_i64 int_display_opt v)
          int_display_opt = some e
        ∧ e.error = .NONE
        ∧ signed_leb128.bytes_to_str sthis2 e.converted_bytes e.converted_byte_count
            int_display_opt
          = some ⟨.NONE, e.converted_byte_count, some (stream_i64 int_display_opt v),
              { sthis2 with bytes_to_string_result := (stream_i64 int_display_opt v) }⟩ := by
  have he := signed_leb128.str_to_bytes_signed_text ULONG_MAX value0 sthis v int_display_opt
    (by omega) (by omega) hopt
  have hz := zigzag_encode_eq v (by omega) (by omega)
  generalize signed_leb128.zigzag_encode v = u at he hz
  refine ⟨_, he, rfl, ?_⟩
  have hu : u < 2 ^ 63 := by
    split_ifs at hz <;> omega
  have hd := (unsigned_leb128.loop_leb_groups u hu).1
  have hw : wrap_i64 ((u : Nat) : Int) = ((u : Nat) : Int) := by
    unfold wrap_i64
    omega
  have hzz : signed_leb128.zigzag_decode (wrap_i64 ((u : Nat) : Int)) = v := by
    rw [hw, zigzag_decode_eq _ (by omega) (by omega)]
    split_ifs at hz ⊢ <;> omega
  have hloop : signed_leb128.bytes_to_str_loop ((leb_groups 10 u).length : Int)
      (leb_groups 10 u) 0 0 0
      = some (.NONE, wrap_i64 ((u : Nat) : Int), ((leb_groups 10 u).length : Int)) := by
    rw [signed_leb128.loop_zero_eq_unsigned, hd, Option.map_some']
  show signed_leb128.bytes_to_str sthis2 (leb_groups 10 u) ((leb_groups 10 u).length : Int)
    int_display_opt = _
  rw [signed_leb128.bytes_to_str_of_loop sthis2 _ _ int_display_opt _ _ hloop, hzz]

/-- C2, amended, at `v = -1` with a 32-bit `unsigned long` and the decimal option: the
text `-1`, the octet `0x01`. -/
theorem signed_round_trip_witness :
    ∃ e : str_to_bytes_out signed_leb128,
      signed_leb128.str_to_bytes 4294967295 0 signed_leb128.init_instance
          (stream_i64 .DECIMAL (-1)) .DECIMAL = some e
        ∧ e.error = .NONE
        ∧ signed_leb128.bytes_to_str signed_leb128.init_instance e.converted_bytes
            e.converted_byte_count .DECIMAL
          = some ⟨.NONE, e.converted_byte_count, some (stream_i64 .DECIMAL (-1)),
              { signed_leb128.init_instance with
                  bytes_to_string_result := (stream_i64 .DECIMAL (-1)) }⟩ :=
  signed_round_trip 4294967295 0 signed_leb128.init_instance signed_leb128.init_instance
    (-1) .DECIMAL (by decide) (by decide) (Or.inl rfl)

/-- C8 at the buffer `0xFF, 0xFF, 0xFF, 0xFF, 0x1F` with a 32-bit `unsigned long`
(`ULONG_MAX = 4294967295`): the buffer decodes to 8589934591; `str_to_bytes` on that text
returns `NONE` with the octets `0xFF, 0xFF, 0xFF, 0xFF, 0x0F`, which decode to 4294967295
and not to the value the text stands for. -/
theorem canonical_reencoding_32bit_ulong :
    unsigned_leb128.bytes_to_str unsigned_leb128.init_instance
        [0xFF, 0xFF, 0xFF, 0xFF, 0x1F] 5 .DECIMAL
        = some ⟨.NONE, 5, some "8589934591".toList,
            { unsigned_leb128.init_instance with
                bytes_to_string_result := "8589934591".toList }⟩
      ∧ unsigned_leb128.str_to_bytes 4294967295 0 unsigned_leb128.init_instance
          "8589934591".toList .DECIMAL
        = some ⟨.NONE, [0xFF, 0xFF, 0xFF, 0xFF, 0x0F], 5,
            { unsigned_leb128.init_instance with string_to_bytes_result :=
                [0xFF, 0xFF, 0xFF, 0xFF, 0x0F] }⟩
      ∧ unsigned_leb128.bytes_to_str unsigned_leb128.init_instance
          [0xFF, 0xFF, 0xFF, 0xFF, 0x0F] 5 .DECIMAL
        = some ⟨.NONE, 5, some "4294967295".toList,
            { unsigned_leb128.init_instance with
                bytes_to_string_result := "4294967295".toList }⟩ := by
  decide

/-- C9 at the text `4611686018427387904` (`2 ^ 62`) with the decimal option:
`signed_leb128::str_to_bytes` returns `NONE` with ten octets (with a 32-bit and with a
64-bit `unsigned long` alike), one more than the `m_maximum_size` of nine the instance
advertises; where `unsigned long` has 64 bits the unsigned codec does the same on the
text `9223372036854775808` (`2 ^ 63`). -/
theorem encoded_length_exceeds_maximum :
    signed_leb128.str_to_bytes 4294967295 0 signed_leb128.init_instance
        "4611686018427387904".toList .DECIMAL
        = some ⟨.NONE, [0x80, 0x80, 0x80, 0x80, 0x80, 0x80, 0x80, 0x80, 0x80, 0x01], 10,
            { signed_leb128.init_instance with string_to_bytes_result :=
                [0x80, 0x80, 0x80, 0x80, 0x80, 0x80, 0x80, 0x80, 0x80, 0x01] }⟩
      ∧ signed_leb128.str_to_bytes 18446744073709551615 0 signed_leb128.init_instance
        "4611686018427387904".toList .DECIMAL
        = some ⟨.NONE, [0x80, 0x80, 0x80, 0x80, 0x80, 0x80, 0x80, 0x80, 0x80, 0x01], 10,
            { signed_leb128.init_instance with string_to_bytes_result :=
                [0x80, 0x80, 0x80, 0x80, 0x80, 0x80, 0x80, 0x80, 0x80, 0x01] }⟩
      ∧ (unsigned_leb128.str_to_bytes 18446744073709551615 0 unsigned_leb128.init_instance
        "9223372036854775808".toList .DECIMAL).map (fun e => (e.error, e.converted_byte_count))
        = some (.NONE, 10)
      ∧ signed_leb128.init_instance.m_maximum_size = 9
      ∧ unsigned_leb128.init_instance.m_maximum_size = 9 := by
  decide

/-- C10 at the text ` 123 ` with the decimal option (32-bit and 64-bit `unsigned long`
alike): the parser is handed the untrimmed `str`, so both codecs return `INVALID_STRING`
and emit the octets of whatever the local `value` held before (here 0, then 77), while the
text `123` gives `NONE` with the octet of 123 (unsigned) or the octets of its zig-zag form
246 (signed). -/
theorem whitespace_not_trimmed :
    unsigned_leb128.str_to_bytes 4294967295 0 unsigned_leb128.init_instance
        " 123 ".toList .DECIMAL
        = some ⟨.INVALID_STRING, [0x00], 1,
            { unsigned_leb128.init_instance with string_to_bytes_result := [0x00] }⟩
      ∧ unsigned_leb128.str_to_bytes 18446744073709551615 77 unsigned_leb128.init_instance
        " 123 ".toList .DECIMAL
        = some ⟨.INVALID_STRING, [77], 1,
            { unsigned_leb128.init_instance with string_to_bytes_result := [77] }⟩
      ∧ unsigned_leb128.str_to_bytes 4294967295 0 unsigned_leb128.init_instance
        "123".toList .DECIMAL
        = some ⟨.NONE, [123], 1,
            { unsigned_leb128.init_instance with string_to_bytes_result := [123] }⟩
      ∧ signed_leb128.str_to_bytes 4294967295 0 signed_leb128.init_instance
        " 123 ".toList .DECIMAL
        = some ⟨.INVALID_STRING, [0x00], 1,
            { signed_leb128.init_instance with string_to_bytes_result := [0x00] }⟩
      ∧ signed_leb128.str_to_bytes 18446744073709551615 77 signed_leb128.init_instance
        " 123 ".toList .DECIMAL
        = some ⟨.INVALID_STRING, [0x9A, 0x01], 2,
            { signed_leb128.init_instance with string_to_bytes_result := [0x9A, 0x01] }⟩
      ∧ signed_leb128.str_to_bytes 4294967295 0 signed_leb128.init_instance
        "123".toList .DECIMAL
        = some ⟨.NONE, [0xF6, 0x01], 2,
            { signed_leb128.init_instance with string_to_bytes_result := [0xF6, 0x01] }⟩ := by
  decide

/-- The re-encoding of C8 where `wcstoul` does not saturate: whenever
`unsigned_leb128::bytes_to_str` succeeds, its text is that of a value `v < 2 ^ 63`, and if
`unsigned long` can hold `v`, then `str_to_bytes` on the decimal text of `v` returns `NONE`
with octets that decode to `v`, are no more than the octets consumed before, and end in
a non-zero octet unless they are the single octet `0x00`. -/
theorem canonical_reencoding_within_ulong (ULONG_MAX value0 : Nat)
    (uthis uthis2 : unsigned_leb128) (bytes : List Nat) (byte_count : Int)
    (int_display_opt : integer_display_option) (d : bytes_to_str_out unsigned_leb128)
    (hdec : unsigned_leb128.bytes_to_str uthis bytes byte_count int_display_opt = some d)
    (hok : d.error = .NONE) :
    ∃ v : Nat, d.converted_str = some (stream_u64 int_display_opt v) ∧ v < 2 ^ 63
      ∧ (v ≤ ULONG_MAX →
        ∃ e : str_to_bytes_out unsigned_leb128,
          unsigned_leb128.str_to_bytes ULONG_MAX value0 uthis2 (stream_u64 .DECIMAL v) .DECIMAL
              = some e
            ∧ e.error = .NONE
            ∧ unsigned_leb128.bytes_to_str_loop e.converted_byte_count e.converted_bytes 0 0 0
              = some (.NONE, v, e.converted_byte_count)
            ∧ e.converted_byte_count ≤ d.converted_byte_count
            ∧ (e.converted_bytes = [0x00] ∨ e.converted_bytes.getLast? ≠ some 0)) := by
  rw [unsigned_leb128.bytes_to_str] at hdec
  cases hl : unsigned_leb128.bytes_to_str_loop byte_count bytes 0 0 0 with
  | none => rw [hl] at hdec; simp at hdec
  | some x =>
    obtain ⟨err, v, n⟩ := x
    rw [hl] at hdec
    cases err with
    | INVALID_BYTES => simp at hdec; subst hdec; simp at hok
    | BYTES_TOO_SHORT => simp at hdec; subst hdec; simp at hok
    | NONE =>
      simp only [Option.some.injEq] at hdec
      subst hdec
      have hl2 : unsigned_leb128.bytes_to_str_loop byte_count bytes 0 ((0 : Nat) : Int) (7 * 0)
          = some (.NONE, v, n) := hl
      obtain ⟨m, hm, hm1, hm9, hvm⟩ := unsigned_leb128.loop_value_bound byte_count bytes 0 0 v n
        (by norm_num) hl2
      have hv63 : v < 2 ^ 63 :=
        lt_of_lt_of_le hvm (Nat.pow_le_pow_right (by norm_num) (by omega))
      refine ⟨v, rfl, hv63, ?_⟩
      intro hU
      have he := unsigned_leb128.str_to_bytes_text ULONG_MAX value0 uthis2 v .DECIMAL
        (lt_trans hv63 (by norm_num)) hU
      have hv128 : v < 128 ^ m := by
        have : (128 : Nat) ^ m = 2 ^ (7 * m) := by
          rw [Nat.pow_mul]
        omega
      have hlen := leb_groups_length 10 m v (by omega) hv128
      obtain ⟨pre, l, e, -, -, hz, -⟩ := leb_groups_shape 10 v (by norm_num)
        (lt_trans hv63 (by norm_num))
      refine ⟨_, he, rfl, (unsigned_leb128.loop_leb_groups v hv63).1, ?_, ?_⟩
      · show ((leb_groups 10 v).length : Int) ≤ n
        omega
      · show leb_groups 10 v = [0x00] ∨ (leb_groups 10 v).getLast? ≠ some 0
        rw [e]
        by_cases hl0 : l = 0
        · left
          rw [hz hl0, hl0]
          rfl
        · right
          simp [hl0]

/-! ## Second group of claims: decoding and zig-zag -/

/-- C11. Signed decode is zig-zag of the unsigned accumulation: for every buffer and
`byte_count` the loop of `signed_leb128::bytes_to_str` leaves with the code, the count and,
as a number, the accumulator of the loop of `unsigned_leb128::bytes_to_str` (so no step of
the signed accumulation overflows); the two functions return the same code and the same
count; on success the unsigned accumulator `a` is below `2 ^ 63`, the zig-zag step gives
`a / 2` for even `a` and `-(a + 1) / 2` for odd `a`, and the signed text is the text of
that number.  In particular `[0x02]` decodes to 1 and `[0x01]` to -1. -/
theorem signed_decode_is_zigzag_of_unsigned (uthis : unsigned_leb128) (sthis : signed_leb128)
    (bytes : List Nat) (byte_count : Int) (int_display_opt : integer_display_option) :
    signed_leb128.bytes_to_str_loop byte_count bytes 0 0 0
        = (unsigned_leb128.bytes_to_str_loop byte_count bytes 0 0 0).map
            (fun r => (r.1, (r.2.1 : Int), r.2.2))
      ∧ ((unsigned_leb128.bytes_to_str uthis bytes byte_count int_display_opt = none
            ∧ signed_leb128.bytes_to_str sthis bytes byte_count int_display_opt = none)
          ∨ ∃ (du : bytes_to_str_out unsigned_leb128) (ds : bytes_to_str_out signed_leb128),
              unsigned_leb128.bytes_to_str uthis bytes byte_count int_display_opt = some du
                ∧ signed_leb128.bytes_to_str sthis bytes byte_count int_display_opt = some ds
                ∧ ds.error = du.error
                ∧ ds.converted_byte_count = du.converted_byte_count
                ∧ (du.error ≠ .NONE → du.converted_str = none ∧ ds.converted_str = none)
                ∧ (du.error = .NONE →
                    ∃ a : Nat, a < 2 ^ 63
                      ∧ unsigned_leb128.bytes_to_str_loop byte_count bytes 0 0 0
                          = some (.NONE, a, du.converted_byte_count)
                      ∧ du.converted_str = some (stream_u64 int_display_opt a)
                      ∧ signed_leb128.zigzag_decode (a : Int)
                          = (if (a : Int) % 2 = 0 then (a : Int) / 2
                              else -(((a : Int) + 1) / 2))
                      ∧ ds.converted_str = some (stream_i64 int_display_opt
                          (if (a : Int) % 2 = 0 then (a : Int) / 2
                            else -(((a : Int) + 1) / 2)))))
      ∧ signed_leb128.bytes_to_str sthis [0x02] 1 .DECIMAL
          = some ⟨.NONE, 1, some "1".toList,
              { sthis with bytes_to_string_result := "1".toList }⟩
      ∧ signed_leb128.bytes_to_str sthis [0x01] 1 .DECIMAL
          = some ⟨.NONE, 1, some "-1".toList,
              { sthis with bytes_to_string_result := "-1".toList }⟩ := by
  have hex := signed_leb128.loop_eq_unsigned_exact byte_count bytes
  refine ⟨hex, ?_, ?_, ?_⟩
  · cases h : unsigned_leb128.bytes_to_str_loop byte_count bytes 0 0 0 with
    | none =>
      left
      rw [h, Option.map_none'] at hex
      constructor
      · rw [unsigned_leb128.bytes_to_str, h]
      · rw [signed_leb128.bytes_to_str, hex]
    | some r =>
      right
      obtain ⟨err, a, n⟩ := r
      rw [h, Option.map_some'] at hex
      have ha := (unsigned_leb128.loop_value_lt byte_count bytes a n err h).1
      cases err with
      | NONE =>
        have hzz : signed_leb128.zigzag_decode (a : Int)
            = (if (a : Int) % 2 = 0 then (a : Int) / 2 else -(((a : Int) + 1) / 2)) := by
          rw [zigzag_decode_eq _ (by omega) (by omega)]
          split_ifs <;> omega
        have hs := signed_leb128.bytes_to_str_of_loop sthis bytes byte_count int_display_opt
          _ _ hex
        rw [hzz] at hs
        refine ⟨_, _, by rw [unsigned_leb128.bytes_to_str, h], hs, rfl, rfl, ?_, ?_⟩
        · intro hne
          exact absurd rfl hne
        · intro _
          exact ⟨a, ha, rfl, rfl, hzz, rfl⟩
      | INVALID_BYTES =>
        refine ⟨⟨.INVALID_BYTES, n, none, uthis⟩, ⟨.INVALID_BYTES, n, none, sthis⟩,
          by rw [unsigned_leb128.bytes_to_str, h], by rw [signed_leb128.bytes_to_str, hex],
          rfl, rfl, fun _ => ⟨rfl, rfl⟩, ?_⟩
        intro he
        cases he
      | BYTES_TOO_SHORT =>
        refine ⟨⟨.BYTES_TOO_SHORT, n, none, uthis⟩, ⟨.BYTES_TOO_SHORT, n, none, sthis⟩,
          by rw [unsigned_leb128.bytes_to_str, h], by rw [signed_leb128.bytes_to_str, hex],
          rfl, rfl, fun _ => ⟨rfl, rfl⟩, ?_⟩
        intro he
        cases he
  · have hl : signed_leb128.bytes_to_str_loop 1 [0x02] 0 0 0 = some (.NONE, 2, 1) := by
      decide
    have hz : stream_i64 .DECIMAL (signed_leb128.zigzag_decode 2) = "1".toList := by decide
    rw [signed_leb128.bytes_to_str_of_loop sthis _ _ .DECIMAL _ _ hl, hz]
  · have hl : signed_leb128.bytes_to_str_loop 1 [0x01] 0 0 0 = some (.NONE, 1, 1) := by
      decide
    have hz : stream_i64 .DECIMAL (signed_leb128.zigzag_decode 1) = "-1".toList := by decide
    rw [signed_leb128.bytes_to_str_of_loop sthis _ _ .DECIMAL _ _ hl, hz]

/-- C17, as stated, fails at `v = 2 ^ 62`: the encoder's formula gives the bit pattern
`2 ^ 63`, as an `int64_t` the number `-2 ^ 63`, and the decoder's formula, whose `>> 1`
propagates the sign, gives `-2 ^ 62`. -/
theorem zigzag_inverse_counterexample :
    signed_leb128.zigzag_encode 4611686018427387904 = 9223372036854775808
      ∧ wrap_i64 ((signed_leb128.zigzag_encode 4611686018427387904 : Nat) : Int)
        = -9223372036854775808
      ∧ signed_leb128.zigzag_decode
          (wrap_i64 ((signed_leb128.zigzag_encode 4611686018427387904 : Nat) : Int))
        = -4611686018427387904
      ∧ signed_leb128.zigzag_decode
          (wrap_i64 ((signed_leb128.zigzag_encode 4611686018427387904 : Nat) : Int))
        ≠ 4611686018427387904 := by
  decide

/-- C17, amended: for every `v` with `-2 ^ 62 <= v < 2 ^ 62`, the values whose zig-zag
form fits the 63 bits `bytes_to_str` accumulates, the decoder's formula
`(a >> 1) ^ -(a & 1)` on the signed 64-bit `a = (v << 1) ^ (v >> 63)` gives back `v`; and
the encoder's formula alone is a bijection from the signed to the unsigned 64-bit
values. -/
theorem zigzag_inverse_63bit :
    (∀ v : Int, -4611686018427387904 ≤ v → v < 4611686018427387904 →
        signed_leb128.zigzag_decode (wrap_i64 ((signed_leb128.zigzag_encode v : Nat) : Int)) = v)
      ∧ (∀ v w : Int, -9223372036854775808 ≤ v → v < 9223372036854775808 →
          -9223372036854775808 ≤ w → w < 9223372036854775808 →
          signed_leb128.zigzag_encode v = signed_leb128.zigzag_encode w → v = w)
      ∧ (∀ u : Nat, u < 2 ^ 64 →
          ∃ v : Int, -9223372036854775808 ≤ v ∧ v < 9223372036854775808
            ∧ signed_leb128.zigzag_encode v = u) := by
  refine ⟨?_, ?_, ?_⟩
  · intro v h1 h2
    have hz := zigzag_encode_eq v (by omega) (by omega)
    generalize signed_leb128.zigzag_encode v = u at hz ⊢
    have hu : u < 2 ^ 63 := by
      split_ifs at hz <;> omega
    rw [wrap_i64_small u hu, zigzag_decode_eq _ (by omega) (by omega)]
    split_ifs at hz ⊢ <;> omega
  · intro v w hv1 hv2 hw1 hw2 h
    have hzv := zigzag_encode_eq v hv1 hv2
    have hzw := zigzag_encode_eq w hw1 hw2
    rw [h] at hzv
    generalize signed_leb128.zigzag_encode w = u at hzv hzw
    split_ifs at hzv hzw <;> omega
  · intro u hu
    by_cases he : u % 2 = 0
    · refine ⟨((u / 2 : Nat) : Int), by omega, by omega, ?_⟩
      have hz := zigzag_encode_eq ((u / 2 : Nat) : Int) (by omega) (by omega)
      generalize signed_leb128.zigzag_encode ((u / 2 : Nat) : Int) = x at hz ⊢
      rw [if_pos (by omega)] at hz
      omega
    · refine ⟨-((u / 2 : Nat) : Int) - 1, by omega, by omega, ?_⟩
      have hz := zigzag_encode_eq (-((u / 2 : Nat) : Int) - 1) (by omega) (by omega)
      generalize signed_leb128.zigzag_encode (-((u / 2 : Nat) : Int) - 1) = x at hz ⊢
      rw [if_neg (by omega)] at hz
      omega

/-- C17, amended, at `v = -3`. -/
theorem zigzag_inverse_63bit_witness :
    signed_leb128.zigzag_decode (wrap_i64 ((signed_leb128.zigzag_encode (-3) : Nat) : Int))
      = -3 :=
  zigzag_inverse_63bit.1 (-3) (by decide) (by decide)

/-- C19. Unsigned round trip on the 63-bit range: for every `v < 2 ^ 63` the emitting
loop returns a sequence of at most nine octets, and `unsigned_leb128::bytes_to_str` on
exactly those octets leaves its loop with `NONE`, all octets consumed and the value `v`,
and returns the text of `v`. -/
theorem unsigned_round_trip_63bit (uthis : unsigned_leb128) (v : Nat)
    (int_display_opt : integer_display_option) (hv : v < 2 ^ 63) :
    ∃ e : List Nat, emit_loop 10 v [] = some e
      ∧ 1 ≤ e.length ∧ e.length ≤ 9
      ∧ unsigned_leb128.bytes_to_str_loop (e.length : Int) e 0 0 0
          = some (.NONE, v, (e.length : Int))
      ∧ unsigned_leb128.bytes_to_str uthis e (e.length : Int) int_display_opt
          = some ⟨.NONE, (e.length : Int), some (stream_u64 int_display_opt v),
              { uthis with bytes_to_string_result := (stream_u64 int_display_opt v) }⟩ := by
  have he := emit_loop_eq 10 v [] (by norm_num) (lt_trans hv (by norm_num))
  rw [List.nil_append] at he
  obtain ⟨hd, hlen⟩ := unsigned_leb128.loop_leb_groups v hv
  obtain ⟨pre, l, e, -, -, -, -⟩ := leb_groups_shape 10 v (by norm_num)
    (lt_trans hv (by norm_num))
  refine ⟨leb_groups 10 v, he, by rw [e]; simp, hlen, hd, ?_⟩
  rw [unsigned_leb128.bytes_to_str, hd]

/-- C19 at `v = 16384`: the octets `0x80, 0x80, 0x01`. -/
theorem unsigned_round_trip_63bit_witness :
    ∃ e : List Nat, emit_loop 10 16384 [] = some e
      ∧ 1 ≤ e.length ∧ e.length ≤ 9
      ∧ unsigned_leb128.bytes_to_str_loop (e.length : Int) e 0 0 0
          = some (.NONE, 16384, (e.length : Int))
      ∧ unsigned_leb128.bytes_to_str unsigned_leb128.init_instance e (e.length : Int) .DECIMAL
          = some ⟨.NONE, (e.length : Int), some (stream_u64 .DECIMAL 16384),
              { unsigned_leb128.init_instance with
                  bytes_to_string_result := (stream_u64 .DECIMAL 16384) }⟩ :=
  unsigned_round_trip_63bit unsigned_leb128.init_instance 16384 .DECIMAL (by decide)

/-- C20. Signed round trip on the 63-bit zig-zag range: for every `v` with
`-2 ^ 62 <= v < 2 ^ 62` the emitting loop on the zig-zag form of `v` returns a sequence of
at most nine octets, which is what `signed_leb128::str_to_bytes` emits (with `NONE`) for
the decimal text of `v`; and `signed_leb128::bytes_to_str` on exactly those octets leaves
its loop with `NONE` and all octets consumed, its zig-zag step gives `v`, and it returns
the text of `v`. -/
theorem signed_round_trip_63bit (ULONG_MAX : Nat) (value0 : Int)
    (sthis sthis2 : signed_leb128) (v : Int) (int_display_opt : integer_display_option)
    (h1 : -4611686018427387904 ≤ v) (h2 : v < 4611686018427387904) :
    ∃ e : List Nat, emit_loop 10 (signed_leb128.zigzag_encode v) [] = some e
      ∧ 1 ≤ e.length ∧ e.length ≤ 9
      ∧ signed_leb128.str_to_bytes ULONG_MAX value0 sthis (stream_i64 .DECIMAL v) .DECIMAL
          = some ⟨.NONE, e, (e.length : Int), { sthis with string_to_bytes_result := e }⟩
      ∧ (∃ a : Int, signed_leb128.bytes_to_str_loop (e.length : Int) e 0 0 0
            = some (.NONE, a, (e.length : Int))
          ∧ signed_leb128.zigzag_decode a = v)
      ∧ signed_leb128.bytes_to_str sthis2 e (e.length : Int) int_display_opt
          = some ⟨.NONE, (e.length : Int), some (stream_i64 int_display_opt v),
              { sthis2 with bytes_to_string_result := (stream_i64 int_display_opt v) }⟩ := by
  have hs := signed_leb128.str_to_bytes_signed_text ULONG_MAX value0 sthis v .DECIMAL
    (by omega) (by omega) (Or.inl rfl)
  have hz := zigzag_encode_eq v (by omega) (by omega)
  generalize signed_leb128.zigzag_encode v = u at hs hz ⊢
  have hu : u < 2 ^ 63 := by
    split_ifs at hz <;> omega
  have he := emit_loop_eq 10 u [] (by norm_num) (lt_trans hu (by norm_num))
  rw [List.nil_append] at he
  obtain ⟨hd, hlen⟩ := unsigned_leb128.loop_leb_groups u hu
  obtain ⟨pre, l, e, -, -, -, -⟩ := leb_groups_shape 10 u (by norm_num)
    (lt_trans hu (by norm_num))
  have hloop : signed_leb128.bytes_to_str_loop ((leb_groups 10 u).length : Int)
      (leb_groups 10 u) 0 0 0
      = some (.NONE, ((u : Nat) : Int), ((leb_groups 10 u).length : Int)) := by
    rw [signed_leb128.loop_eq_unsigned_exact, hd, Option.map_some']
  have hzz : signed_leb128.zigzag_decode ((u : Nat) : Int) = v := by
    rw [zigzag_decode_eq _ (by omega) (by omega)]
    split_ifs at hz ⊢ <;> omega
  refine ⟨leb_groups 10 u, he, by rw [e]; simp, hlen, hs, ⟨_, hloop, hzz⟩, ?_⟩
  rw [signed_leb128.bytes_to_str_of_loop sthis2 _ _ int_display_opt _ _ hloop, hzz]

/-- C20 at `v = -1`: the single octet `0x01`. -/
theorem signed_round_trip_63bit_witness :
    ∃ e : List Nat, emit_loop 10 (signed_leb128.zigzag_encode (-1)) [] = some e
      ∧ 1 ≤ e.length ∧ e.length ≤ 9
      ∧ signed_leb128.str_to_bytes 4294967295 0 signed_leb128.init_instance
          (stream_i64 .DECIMAL (-1)) .DECIMAL
          = some ⟨.NONE, e, (e.length : Int),
              { signed_leb128.init_instance with string_to_bytes_result := e }⟩
      ∧ (∃ a : Int, signed_leb128.bytes_to_str_loop (e.length : Int) e 0 0 0
            = some (.NONE, a, (e.length : Int))
          ∧ signed_leb128.zigzag_decode a = -1)
      ∧ signed_leb128.bytes_to_str signed_leb128.init_instance e (e.length : Int) .DECIMAL
          = some ⟨.NONE, (e.length : Int), some (stream_i64 .DECIMAL (-1)),
              { signed_leb128.init_instance with
                  bytes_to_string_result := (stream_i64 .DECIMAL (-1)) }⟩ :=
  signed_round_trip_63bit 4294967295 0 signed_leb128.init_instance
    signed_leb128.init_instance (-1) .DECIMAL (by decide) (by decide)

/-- C18. Decode never reads past the supplied buffer: for every buffer and every
`byte_count` (zero and negative included), `bytes_to_str` of either codec gives the same
result on any buffer with the same octets below the index `min byte_count 9` (no octet at
an index `i >= byte_count` or `i >= 9` is read); on a buffer that holds those octets no
read leaves the buffer; and on every return, successful or not,
`0 <= converted_byte_count <= min (max byte_count 0) 9`. -/
theorem decode_reads_within_buffer (uthis : unsigned_leb128) (sthis : signed_leb128)
    (bytes : List Nat) (byte_count : Int) (int_display_opt : integer_display_option) :
    (∀ bytes2 : List Nat,
        bytes2.take (min byte_count.toNat 9) = bytes.take (min byte_count.toNat 9) →
        unsigned_leb128.bytes_to_str uthis bytes2 byte_count int_display_opt
            = unsigned_leb128.bytes_to_str uthis bytes byte_count int_display_opt
          ∧ signed_leb128.bytes_to_str sthis bytes2 byte_count int_display_opt
            = signed_leb128.bytes_to_str sthis bytes byte_count int_display_opt)
      ∧ (min byte_count.toNat 9 ≤ bytes.length →
          (∃ r, unsigned_leb128.bytes_to_str uthis bytes byte_count int_display_opt = some r)
            ∧ ∃ r, signed_leb128.bytes_to_str sthis bytes byte_count int_display_opt = some r)
      ∧ (∀ r, unsigned_leb128.bytes_to_str uthis bytes byte_count int_display_opt = some r →
          0 ≤ r.converted_byte_count ∧ r.converted_byte_count ≤ min (max byte_count 0) 9)
      ∧ (∀ r, signed_leb128.bytes_to_str sthis bytes byte_count int_display_opt = some r →
          0 ≤ r.converted_byte_count ∧ r.converted_byte_count ≤ min (max byte_count 0) 9) := by
  have htake : ∀ b : List Nat, unsigned_leb128.bytes_to_str_loop byte_count b 0 0 0
      = unsigned_leb128.bytes_to_str_loop byte_count (b.take (min byte_count.toNat 9)) 0 0 0 :=
    fun b => unsigned_leb128.loop_take byte_count b 0 0 0
  have hcount : ∀ x : bytes_to_str_error_code × Nat × Int,
      unsigned_leb128.bytes_to_str_loop byte_count bytes 0 0 0 = some x →
      0 ≤ x.2.2 ∧ x.2.2 ≤ min (max byte_count 0) 9 := by
    intro x hx
    have := unsigned_leb128.loop_count_le byte_count bytes 0 0 0 x hx
    simp only [Nat.cast_zero] at this
    omega
  refine ⟨?_, ?_, ?_, ?_⟩
  · intro bytes2 h2
    have hl : unsigned_leb128.bytes_to_str_loop byte_count bytes2 0 0 0
        = unsigned_leb128.bytes_to_str_loop byte_count bytes 0 0 0 := by
      rw [htake bytes2, htake bytes, h2]
    constructor
    · rw [unsigned_leb128.bytes_to_str, unsigned_leb128.bytes_to_str, hl]
    · rw [signed_leb128.bytes_to_str, signed_leb128.bytes_to_str,
        signed_leb128.loop_zero_eq_unsigned, signed_leb128.loop_zero_eq_unsigned, hl]
  · intro hlen
    obtain ⟨x, hx⟩ := unsigned_leb128.loop_in_buffer byte_count bytes 0 0 0 (by omega)
    simp only [Nat.cast_zero] at hx
    obtain ⟨err, a, n⟩ := x
    have hs := signed_leb128.loop_eq_unsigned_exact byte_count bytes
    rw [hx, Option.map_some'] at hs
    constructor
    · rw [unsigned_leb128.bytes_to_str, hx]
      cases err <;> exact ⟨_, rfl⟩
    · cases err with
      | NONE => exact ⟨_, signed_leb128.bytes_to_str_of_loop sthis _ _ int_display_opt _ _ hs⟩
      | INVALID_BYTES =>
        rw [signed_leb128.bytes_to_str, hs]
        exact ⟨_, rfl⟩
      | BYTES_TOO_SHORT =>
        rw [signed_leb128.bytes_to_str, hs]
        exact ⟨_, rfl⟩
  · intro r hr
    rw [unsigned_leb128.bytes_to_str] at hr
    cases hl : unsigned_leb128.bytes_to_str_loop byte_count bytes 0 0 0 with
    | none => rw [hl] at hr; simp at hr
    | some x =>
      have hc := hcount x hl
      obtain ⟨e, v, c⟩ := x
      rw [hl] at hr
      cases e <;> simp only [Option.some.injEq] at hr <;> subst hr <;> exact hc
  · intro r hr
    have hs := signed_leb128.loop_eq_unsigned_exact byte_count bytes
    cases hl : unsigned_leb128.bytes_to_str_loop byte_count bytes 0 0 0 with
    | none =>
      rw [hl, Option.map_none'] at hs
      rw [signed_leb128.bytes_to_str, hs] at hr
      simp at hr
    | some x =>
      have hc := hcount x hl
      obtain ⟨e, v, c⟩ := x
      rw [hl, Option.map_some'] at hs
      cases e with
      | NONE =>
        rw [signed_leb128.bytes_to_str_of_loop sthis _ _ int_display_opt _ _ hs] at hr
        simp only [Option.some.injEq] at hr
        subst hr
        exact hc
      | INVALID_BYTES =>
        rw [signed_leb128.bytes_to_str, hs] at hr
        simp only [Option.some.injEq] at hr
        subst hr
        exact hc
      | BYTES_TOO_SHORT =>
        rw [signed_leb128.bytes_to_str, hs] at hr
        simp only [Option.some.injEq] at hr
        subst hr
        exact hc

/-- C18 at the buffer `0x80, 0x01, 0x55` with `byte_count = 2`: both codecs return, and
the octet at index 2 can be anything. -/
theorem decode_reads_within_buffer_witness :
    ((∃ r, unsigned_leb128.bytes_to_str unsigned_leb128.init_instance [0x80, 0x01, 0x55] 2
          .DECIMAL = some r)
        ∧ ∃ r, signed_leb128.bytes_to_str signed_leb128.init_instance [0x80, 0x01, 0x55] 2
          .DECIMAL = some r)
      ∧ unsigned_leb128.bytes_to_str unsigned_leb128.init_instance [0x80, 0x01, 0xAA, 0xBB] 2
          .DECIMAL
        = unsigned_leb128.bytes_to_str unsigned_leb128.init_instance [0x80, 0x01, 0x55] 2
          .DECIMAL :=
  have h := decode_reads_within_buffer unsigned_leb128.init_instance
    signed_leb128.init_instance [0x80, 0x01, 0x55] 2 .DECIMAL
  ⟨h.2.1 (by decide), (h.1 [0x80, 0x01, 0xAA, 0xBB] (by decide)).1⟩

/-! ## Second group of claims: the parsers and encoding -/

/-- The fallback of `signed_leb128::str_to_bytes`, whatever `ULONG_MAX` is: when `str2int`
reports `OVERFLOW`, the text is parsed again by `str2uint` (which starts from the bit
pattern `str2int` left), the returned code is that of `str2uint`, and the emitted octets
are those of the zig-zag form of the parsed 64-bit pattern read as an `int64_t`. -/
theorem signed_overflow_fallback (ULONG_MAX : Nat) (value0 : Int) (sthis : signed_leb128)
    (str w : List Char) (int_display_opt : integer_display_option)
    (hw : trim str = some w)
    (h : (str2int (some str) value0 (radix_of int_display_opt)).1 = .OVERFLOW) :
    signed_leb128.str_to_bytes ULONG_MAX value0 sthis str int_display_opt
      = (emit_loop 10
          (signed_leb128.zigzag_encode
            (wrap_i64 ((str2uint ULONG_MAX (some str)
              (to_u64 (str2int (some str) value0 (radix_of int_display_opt)).2)
              (radix_of int_display_opt)).2 : Int))) []).map
          (fun out =>
            ⟨(str2uint ULONG_MAX (some str)
                (to_u64 (str2int (some str) value0 (radix_of int_display_opt)).2)
                (radix_of int_display_opt)).1,
              out, (out.length : Int), { sthis with string_to_bytes_result := out }⟩) := by
  simp only [signed_leb128.str_to_bytes, hw, h, if_true]

/-- C12 at the text `0xFFFFFFFFFFFFFFFF` with a hexadecimal option and a 32-bit
`unsigned long` (`ULONG_MAX = 4294967295`): `str2int` reports `OVERFLOW`, the second parse
by `str2uint` returns `NONE` with the saturated value 4294967295, and the emitted octets
`0xFE, 0xFF, 0xFF, 0xFF, 0x1F` are not the octet `0x01` that the decimal text `-1` gives.
With a 64-bit `unsigned long` both texts give `0x01`. -/
theorem overflow_fallback_32bit_ulong :
    str2int (some "0xFFFFFFFFFFFFFFFF".toList) 0 16 = (.OVERFLOW, LLONG_MAX)
      ∧ str2uint 4294967295 (some "0xFFFFFFFFFFFFFFFF".toList) (to_u64 LLONG_MAX) 16
        = (.NONE, 4294967295)
      ∧ signed_leb128.str_to_bytes 4294967295 0 signed_leb128.init_instance
          "0xFFFFFFFFFFFFFFFF".toList .HEX_UPPER_CASE
        = some ⟨.NONE, [0xFE, 0xFF, 0xFF, 0xFF, 0x1F], 5,
            { signed_leb128.init_instance with string_to_bytes_result :=
                [0xFE, 0xFF, 0xFF, 0xFF, 0x1F] }⟩
      ∧ signed_leb128.str_to_bytes 4294967295 0 signed_leb128.init_instance
          "-1".toList .DECIMAL
        = some ⟨.NONE, [0x01], 1,
            { signed_leb128.init_instance with string_to_bytes_result := [0x01] }⟩
      ∧ signed_leb128.str_to_bytes 18446744073709551615 0 signed_leb128.init_instance
          "0xFFFFFFFFFFFFFFFF".toList .HEX_UPPER_CASE
        = some ⟨.NONE, [0x01], 1,
            { signed_leb128.init_instance with string_to_bytes_result := [0x01] }⟩
      ∧ signed_leb128.str_to_bytes 18446744073709551615 0 signed_leb128.init_instance
          "-1".toList .DECIMAL
        = some ⟨.NONE, [0x01], 1,
            { signed_leb128.init_instance with string_to_bytes_result := [0x01] }⟩ := by
  decide

/-- C13. Malformed text rejected: for a text (without a NUL inside) that is empty, or
starts with white space, or contains a character that is no digit of the radix, no sign
and, for radix 16, no `x` or `X`, or of which the scan of `wcstoul` / `wcstoll` leaves
characters unparsed, both `str2uint` and `str2int` return `INVALID_STRING`; so does either
parser on a null pointer. -/
theorem malformed_text_rejected (ULONG_MAX : Nat) (str : List Char) (res_u : Nat)
    (res_i : Int) (radix : Nat) (hnul : Char.ofNat 0 ∉ str)
    (hbad : str = [] ∨ iswspace (deref str 0) = true
      ∨ (∃ c ∈ str, ¬ (is_digit radix c = true ∨ c.toNat = 43 ∨ c.toNat = 45
          ∨ (radix = 16 ∧ (c.toNat = 120 ∨ c.toNat = 88))))
      ∨ (wcstoul ULONG_MAX str radix).endptr < str.length
      ∨ (wcstoll str radix).endptr < str.length) :
    (str2uint ULONG_MAX (some str) res_u radix).1 = .INVALID_STRING
      ∧ (str2int (some str) res_i radix).1 = .INVALID_STRING
      ∧ (str2uint ULONG_MAX none res_u radix).1 = .INVALID_STRING
      ∧ (str2int none res_i radix).1 = .INVALID_STRING := by
  have hbad2 : str = [] ∨ iswspace (deref str 0) = true
      ∨ (∃ c ∈ str, ¬ (is_digit radix c = true ∨ c.toNat = 43 ∨ c.toNat = 45
          ∨ (radix = 16 ∧ (c.toNat = 120 ∨ c.toNat = 88))))
      ∨ (wcstoul ULONG_MAX str radix).endptr < str.length := by
    rcases hbad with h | h | h | h | h
    · exact Or.inl h
    · exact Or.inr (Or.inl h)
    · exact Or.inr (Or.inr (Or.inl h))
    · exact Or.inr (Or.inr (Or.inr h))
    · rw [wcstoll_endptr, ← wcstoul_endptr ULONG_MAX] at h
      exact Or.inr (Or.inr (Or.inr h))
  have hu := scan_rejects radix str hnul (wcstoul ULONG_MAX str radix).endptr
    (wcstoul_endptr ULONG_MAX str radix) hbad2
  have hi : iswspace (deref str 0) = true ∨ (wcstoll str radix).endptr = 0
      ∨ deref str (wcstoll str radix).endptr ≠ Char.ofNat 0 := by
    rw [wcstoll_endptr, ← wcstoul_endptr ULONG_MAX]
    exact hu
  exact ⟨(str2uint_invalid_iff ULONG_MAX str res_u radix).mpr hu,
    (str2int_invalid_iff str res_i radix).mpr hi, rfl, rfl⟩

/-- C13 at the text `12x` in radix 10, which contains `x`. -/
theorem malformed_text_rejected_witness :
    (str2uint 4294967295 (some "12x".toList) 0 10).1 = .INVALID_STRING
      ∧ (str2int (some "12x".toList) 0 10).1 = .INVALID_STRING :=
  have h := malformed_text_rejected 4294967295 "12x".toList 0 0 10 (by decide)
    (Or.inr (Or.inr (Or.inl ⟨Char.ofNat 120, by decide, by decide⟩)))
  ⟨h.1, h.2.1⟩

/-- C14 at the text `99999999999999999999` in radix 10 with a 32-bit `unsigned long`
(`ULONG_MAX = 4294967295`): `wcstoul` saturates to 4294967295 and sets `ERANGE`, the test
`*res == ULLONG_MAX` fails, and `str2uint` returns `NONE`, not `OVERFLOW`.  With a 64-bit
`unsigned long` it returns `OVERFLOW`, as `str2int` does on `9223372036854775808`. -/
theorem overflow_unclassified_32bit_ulong :
    wcstoul 4294967295 "99999999999999999999".toList 10 = ⟨4294967295, 20, true⟩
      ∧ str2uint 4294967295 (some "99999999999999999999".toList) 0 10 = (.NONE, 4294967295)
      ∧ str2uint 18446744073709551615 (some "99999999999999999999".toList) 0 10
        = (.OVERFLOW, 18446744073709551615)
      ∧ str2int (some "9223372036854775808".toList) 0 10 = (.OVERFLOW, LLONG_MAX) := by
  decide

/-- C15 at the text `-1` in radix 10: `wcstoul` negates in the unsigned type and sets no
`ERANGE`, so `str2uint` returns `NONE` with `ULONG_MAX` (32-bit and 64-bit alike), not
`UNDERFLOW`; even the text `-99999999999999999999` does not give `UNDERFLOW`.  `str2int`
on `-9223372036854775809` returns `UNDERFLOW`. -/
theorem underflow_unclassified_by_str2uint :
    str2uint 4294967295 (some "-1".toList) 0 10 = (.NONE, 4294967295)
      ∧ str2uint 18446744073709551615 (some "-1".toList) 0 10
        = (.NONE, 18446744073709551615)
      ∧ str2uint 4294967295 (some "-99999999999999999999".toList) 0 10
        = (.NONE, 4294967295)
      ∧ str2uint 18446744073709551615 (some "-99999999999999999999".toList) 0 10
        = (.OVERFLOW, 18446744073709551615)
      ∧ str2int (some "-9223372036854775809".toList) 0 10 = (.UNDERFLOW, LLONG_MIN)
      ∧ str2int (some "-9223372036854775808".toList) 0 10 = (.NONE, LLONG_MIN) := by
  decide

/-- C16 at the text ` 123 ` with the decimal option: the parser returns before it writes
`*res`, so two calls that differ only in what the local `value` held before (0 and 77)
return different octets, for both codecs. -/
theorem encode_depends_on_uninitialised_value :
    (unsigned_leb128.str_to_bytes 4294967295 0 unsigned_leb128.init_instance
        " 123 ".toList .DECIMAL).map (fun r => (r.error, r.converted_bytes))
        = some (.INVALID_STRING, [0x00])
      ∧ (unsigned_leb128.str_to_bytes 4294967295 77 unsigned_leb128.init_instance
        " 123 ".toList .DECIMAL).map (fun r => (r.error, r.converted_bytes))
        = some (.INVALID_STRING, [0x4D])
      ∧ (signed_leb128.str_to_bytes 4294967295 0 signed_leb128.init_instance
        " 123 ".toList .DECIMAL).map (fun r => (r.error, r.converted_bytes))
        = some (.INVALID_STRING, [0x00])
      ∧ (signed_leb128.str_to_bytes 4294967295 77 signed_leb128.init_instance
        " 123 ".toList .DECIMAL).map (fun r => (r.error, r.converted_bytes))
        = some (.INVALID_STRING, [0x9A, 0x01])
      ∧ (unsigned_leb128.str_to_bytes 4294967295 0 unsigned_leb128.init_instance
        " 123 ".toList .DECIMAL).map (fun r => (r.error, r.converted_bytes))
        ≠ (unsigned_leb128.str_to_bytes 4294967295 77 unsigned_leb128.init_instance
        " 123 ".toList .DECIMAL).map (fun r => (r.error, r.converted_bytes)) := by
  decide

/-- Where C16 holds: for a text that does not start with white space the parser writes
`*res` before it returns, and the code, the octets and their count that `str_to_bytes` of
either codec returns do not depend on the instance or on what the local `value` held
before. -/
theorem encode_pure_without_leading_space (ULONG_MAX : Nat) (str : List Char)
    (int_display_opt : integer_display_option) (hw : iswspace (deref str 0) = false)
    (u0 u1 : Nat) (uthis0 uthis1 : unsigned_leb128) (s0 s1 : Int)
    (sthis0 sthis1 : signed_leb128) :
    (unsigned_leb128.str_to_bytes ULONG_MAX u0 uthis0 str int_display_opt).map
        (fun r => (r.error, r.converted_bytes, r.converted_byte_count))
        = (unsigned_leb128.str_to_bytes ULONG_MAX u1 uthis1 str int_display_opt).map
          (fun r => (r.error, r.converted_bytes, r.converted_byte_count))
      ∧ (signed_leb128.str_to_bytes ULONG_MAX s0 sthis0 str int_display_opt).map
        (fun r => (r.error, r.converted_bytes, r.converted_byte_count))
        = (signed_leb128.str_to_bytes ULONG_MAX s1 sthis1 str int_display_opt).map
          (fun r => (r.error, r.converted_bytes, r.converted_byte_count)) := by
  have hu : ∀ base, str2uint ULONG_MAX (some str) u0 base
      = str2uint ULONG_MAX (some str) u1 base := by
    intro base
    unfold str2uint
    simp only [hw, Bool.false_eq_true, if_false]
  have hs : ∀ base, str2int (some str) s0 base = str2int (some str) s1 base := by
    intro base
    unfold str2int
    simp only [hw, Bool.false_eq_true, if_false]
  constructor
  · unfold unsigned_leb128.str_to_bytes
    cases trim str with
    | none => rfl
    | some w => simp only [hu, Option.map_map, Function.comp_def]
  · unfold signed_leb128.str_to_bytes
    cases trim str with
    | none => rfl
    | some w => simp only [hs, Option.map_map, Function.comp_def]

end data_types
